import Mathlib

/-!
# Verification of the Study-Buddy UI fragments

Shallow embedding of the two source files of the repository:

* `src/hooks/useNativeTTS.ts` — the text-to-speech hook: `sanitizeText`,
  `getBestVoice`, and the promise/keep-alive behaviour of `speak`;
* the unnamed file holding `ExpiringSubscriptionsWidget` (expiry filter,
  days-left computation, urgency badge) and `VoiceSelector` (`getVoiceLabel`).

Strings are modelled as their lists of Unicode scalar values (`String.data`).
The JavaScript regex replaces of `sanitizeText` are embedded as recursive
character-list transformations that follow the regex engine's semantics:
global replace scans left to right, a lazy group `(.*?)` takes the shortest
extent, and `.` never matches a line terminator (`\n`, `\r`, U+2028, U+2029).
The markdown regexes carry no `/u` flag, so they scan UTF-16 code units, but
none of the delimiters involved are surrogate pairs, so the code-point view
used here matches substring-by-substring.  Timestamps (`Date.getTime()`) are
modelled as integer milliseconds; `Math.ceil` of a millisecond quotient is
integer ceiling division.  Recursions that consume a variable number of
characters per step are written with an explicit fuel argument equal to the
input length; every step consumes at least one character, so the fuel never
runs out on the top-level calls.
-/

namespace StudyBuddy

/-! ## JS character classes -/

/-- JavaScript line terminators: the characters `.` does not match. -/
def isLineTerm (c : Char) : Bool :=
  c == '\n' || c == '\r' || decide (c.toNat = 0x2028) || decide (c.toNat = 0x2029)

/-- The JS `\s` class (which is also the character set removed by
`String.prototype.trim`). -/
def isJsSpace (c : Char) : Bool :=
  c == '\t' || c == '\n' || decide (c.toNat = 0xB) || decide (c.toNat = 0xC) ||
  c == '\r' || c == ' ' || decide (c.toNat = 0xA0) || decide (c.toNat = 0x1680) ||
  (decide (0x2000 ≤ c.toNat) && decide (c.toNat ≤ 0x200A)) ||
  decide (c.toNat = 0x2028) || decide (c.toNat = 0x2029) ||
  decide (c.toNat = 0x202F) || decide (c.toNat = 0x205F) ||
  decide (c.toNat = 0x3000) || decide (c.toNat = 0xFEFF)

/-! ## sanitizeText (useNativeTTS.ts lines 49–68) -/

/-- One `.replace(/[\u{lo}-\u{hi}]/gu, '')` pass: drop every character whose
code point lies in the closed range. -/
def removeRange (lo hi : Nat) (cs : List Char) : List Char :=
  cs.filter (fun c => !(decide (lo ≤ c.toNat) && decide (c.toNat ≤ hi)))

/-- Does `cs` start with `d`? -/
def startsWithD : List Char → List Char → Bool
  | [], _ => true
  | _ :: _, [] => false
  | a :: as, b :: bs => a == b && startsWithD as bs

/-- Lazy search for the closing delimiter `d` of `/d(.*?)d/`: starting from the
current position, extend the captured group one character at a time (never over
a line terminator, since `.` does not match those) until `d` is found.  Returns
the captured content and the remainder after the closing delimiter. -/
def findCloseD (d : List Char) : List Char → Option (List Char × List Char)
  | [] => none
  | c :: r =>
    if startsWithD d (c :: r) then some ([], (c :: r).drop d.length)
    else if isLineTerm c then none
    else (findCloseD d r).map (fun p => (c :: p.1, p.2))

/-- One global pass of `.replace(/d(.*?)d/g, '$1')`: at each position, if the
opening delimiter matches and a close is found, emit the captured content and
continue after the match; otherwise emit one character and move on.  `fuel` is
an upper bound on the input length; each recursive call consumes at least one
input character, so the `0` case is unreachable from `stripDelim`. -/
def stripDelimGo (d : List Char) : Nat → List Char → List Char
  | 0, cs => cs
  | _ + 1, [] => []
  | fuel + 1, c :: rest =>
    if startsWithD d (c :: rest) then
      match findCloseD d ((c :: rest).drop d.length) with
      | some (cnt, rem) => cnt ++ stripDelimGo d fuel rem
      | none => c :: stripDelimGo d fuel rest
    else c :: stripDelimGo d fuel rest

def stripDelim (d : List Char) (cs : List Char) : List Char :=
  stripDelimGo d cs.length cs

/-- Length of the maximal `#`-run at the head. -/
def headingRun (cs : List Char) : Nat :=
  (cs.takeWhile (fun x => x == '#')).length

/-- Does `/#{1,6}\s/` match at the head position? -/
def headingMatches (cs : List Char) : Bool :=
  decide (headingRun cs ≤ 6) &&
    (match cs.drop (headingRun cs) with
     | x :: _ => isJsSpace x
     | [] => false)

/-- One global pass of `.replace(/#{1,6}\s/g, '')`.  The greedy `#{1,6}` with
backtracking matches at a position iff the maximal `#`-run there has length
`1 ≤ m ≤ 6` and is directly followed by a `\s` character; the run and that
character are consumed.  A run of 7 or more `#` makes every start inside it
fail until only six `#` remain before the whitespace. -/
def stripHeadingGo : Nat → List Char → List Char
  | 0, cs => cs
  | _ + 1, [] => []
  | fuel + 1, c :: rest =>
    if c == '#' then
      if headingMatches (c :: rest) then
        stripHeadingGo fuel ((c :: rest).drop (headingRun (c :: rest) + 1))
      else c :: stripHeadingGo fuel rest
    else c :: stripHeadingGo fuel rest

def stripHeading (cs : List Char) : List Char := stripHeadingGo cs.length cs

/-- `.replace(/\n+/g, '. ')`: each maximal run of `'\n'` becomes `". "`. -/
def collapseNl : List Char → List Char
  | [] => []
  | [c] => if c == '\n' then ['.', ' '] else [c]
  | c :: c2 :: rest =>
    if c == '\n' then
      if c2 == '\n' then collapseNl (c2 :: rest)
      else '.' :: ' ' :: collapseNl (c2 :: rest)
    else c :: collapseNl (c2 :: rest)

/-- `.replace(/\s+/g, ' ')`: each maximal run of `\s` becomes one space. -/
def collapseWs : List Char → List Char
  | [] => []
  | [c] => if isJsSpace c then [' '] else [c]
  | c :: c2 :: rest =>
    if isJsSpace c then
      if isJsSpace c2 then collapseWs (c2 :: rest)
      else ' ' :: collapseWs (c2 :: rest)
    else c :: collapseWs (c2 :: rest)

/-- Remove every trailing `\s` character. -/
def dropTrailingWs : List Char → List Char
  | [] => []
  | c :: rest =>
    if isJsSpace c && (dropTrailingWs rest).isEmpty then []
    else c :: dropTrailingWs rest

/-- `.trim()`. -/
def trimChars (cs : List Char) : List Char :=
  dropTrailingWs (cs.dropWhile isJsSpace)

/-- The seven emoji-range removals, in source order. -/
def emojiFiltered (cs : List Char) : List Char :=
  removeRange 0x1FA00 0x1FA6F (removeRange 0x1F900 0x1F9FF
    (removeRange 0x2700 0x27BF (removeRange 0x2600 0x26FF
      (removeRange 0x1F680 0x1F6FF (removeRange 0x1F300 0x1F5FF
        (removeRange 0x1F600 0x1F64F cs))))))

/-- Membership in any of the seven removed emoji ranges. -/
def isEmojiChar (c : Char) : Bool :=
  (decide (0x1F600 ≤ c.toNat) && decide (c.toNat ≤ 0x1F64F)) ||
  (decide (0x1F300 ≤ c.toNat) && decide (c.toNat ≤ 0x1F5FF)) ||
  (decide (0x1F680 ≤ c.toNat) && decide (c.toNat ≤ 0x1F6FF)) ||
  (decide (0x2600 ≤ c.toNat) && decide (c.toNat ≤ 0x26FF)) ||
  (decide (0x2700 ≤ c.toNat) && decide (c.toNat ≤ 0x27BF)) ||
  (decide (0x1F900 ≤ c.toNat) && decide (c.toNat ≤ 0x1F9FF)) ||
  (decide (0x1FA00 ≤ c.toNat) && decide (c.toNat ≤ 0x1FA6F))

/-- The full `sanitizeText` pipeline, in source order: seven emoji-range
removals, `**bold**`, `*italic*`, `` `code` ``, `#{1,6}\s` headings, newline
runs to `". "`, whitespace runs to `" "`, and a final trim. -/
def sanitizeChars (cs : List Char) : List Char :=
  trimChars (collapseWs (collapseNl (stripHeading (stripDelim ['`']
    (stripDelim ['*'] (stripDelim ['*', '*'] (emojiFiltered cs)))))))

def sanitizeText (s : String) : String := String.mk (sanitizeChars s.data)

/-- No line terminator occurs in the list. -/
def noLineTerm (cs : List Char) : Bool := cs.all (fun c => !isLineTerm c)

/-- No two adjacent characters are both `\s`. -/
def noAdjWs : List Char → Bool
  | a :: b :: rest => (!(isJsSpace a && isJsSpace b)) && noAdjWs (b :: rest)
  | _ => true

/-- No two adjacent characters both equal `d`. -/
def noAdjChar (d : Char) : List Char → Bool
  | a :: b :: rest => (!(a == d && b == d)) && noAdjChar d (b :: rest)
  | _ => true

/-- A plain character: not whitespace, not in a removed emoji range, and
none of the markdown delimiters the sanitizer strips. -/
def plainChar (c : Char) : Bool :=
  !isJsSpace c && !isEmojiChar c && !(c == '*') && !(c == '`') && !(c == '#')

/-- The first character, if any, is not `\s`. -/
def noLeadWs (cs : List Char) : Bool :=
  match cs with
  | [] => true
  | c :: _ => !isJsSpace c

/-- The last character, if any, is not `\s`. -/
def noTrailWs (cs : List Char) : Bool :=
  match cs.getLast? with
  | none => true
  | some c => !isJsSpace c

/-! ## Voices: getBestVoice (useNativeTTS.ts lines 70–106),
speak's voice binding (lines 134–141), getVoiceLabel (VoiceSelector) -/

structure Voice where
  name : String
  lang : String
deriving DecidableEq

/-- `s.startsWith(pre)` on the code-point view. -/
def strStartsWith (s pre : String) : Bool := startsWithD pre.data s.data

/-- `getBestVoice`: with an empty catalog return `null`; otherwise the first
`hi-IN` voice, else the first `en-IN` voice, else the first voice whose tag
starts with `en`, else the first voice. -/
def getBestVoice (voices : List Voice) : Option Voice :=
  if voices.isEmpty then none
  else
    match voices.find? (fun v => v.lang == "hi-IN") with
    | some v => some v
    | none =>
      match voices.find? (fun v => v.lang == "en-IN") with
      | some v => some v
      | none =>
        match voices.find? (fun v => strStartsWith v.lang "en") with
        | some v => some v
        | none => voices.head?

/-- The spec's wording of the same policy, as a chain of fallbacks. -/
def bestVoiceSpec (voices : List Voice) : Option Voice :=
  (voices.find? (fun v => v.lang == "hi-IN")).orElse (fun _ =>
    (voices.find? (fun v => v.lang == "en-IN")).orElse (fun _ =>
      (voices.find? (fun v => strStartsWith v.lang "en")).orElse (fun _ =>
        voices.head?)))

/-- The voice bound to the utterance by `speak` (lines 134–141). -/
def utteranceVoiceFor (voices : List Voice) : Option Voice := getBestVoice voices

/-- The language tag set on the utterance by `speak` (lines 134–141): the
chosen voice's tag, or the `"hi-IN"` fallback when no voice is available. -/
def utteranceLangFor (voices : List Voice) : String :=
  match getBestVoice voices with
  | some v => v.lang
  | none => "hi-IN"

/-- The `langLabels` record of `getVoiceLabel` (VoiceSelector lines 253–264),
as a partial map. -/
def langLabels (lang : String) : Option String :=
  if lang == "hi-IN" then some "🇮🇳 Hindi"
  else if lang == "hi" then some "🇮🇳 Hindi"
  else if lang == "en-IN" then some "🇮🇳 English (India)"
  else if lang == "en-US" then some "🇺🇸 English (US)"
  else if lang == "en-GB" then some "🇬🇧 English (UK)"
  else none

/-- `getVoiceLabel`: `` `${voice.name} - ${langLabels[voice.lang] || voice.lang}` ``. -/
def getVoiceLabel (v : Voice) : String :=
  v.name ++ " - " ++ (langLabels v.lang).getD v.lang

/-! ## The speak session (useNativeTTS.ts lines 108–206)

`speak` returns `new Promise((resolve, reject) => ...)`.  The executor body
has four kinds of exits: the unsupported-platform and empty-text early
returns, the `catch` around utterance construction, and the engine callbacks
(`onstart`/`onend`/`onerror`, plus the 10-second keep-alive interval).  The
callbacks are modelled as a list of events processed in order by a step
function over the session state; `clearInterval` is modelled by the
`intervalActive` flag guarding the tick handler, since a cleared interval
fires no further callbacks.  `onend`/`onerror` are assigned twice in the
source (lines 152–165 and 183–197); the second assignment overwrites the
first before any event can fire, so the step function embeds the second
versions. -/

inductive PromiseState
  | pending
  | resolved
  | rejected
deriving DecidableEq

/-- Settling a promise: a second settlement is a no-op. -/
def resolveP : PromiseState → PromiseState
  | .pending => .resolved
  | s => s

/-- `reject` — present in the executor's signature but never called by
`speak`'s body. -/
def rejectP : PromiseState → PromiseState
  | .pending => .rejected
  | s => s

inductive TTSEvent
  | start
  /-- one firing of the 10-second keep-alive interval; the argument is what
  `window.speechSynthesis.speaking` reports at that moment. -/
  | tick (engineSpeaking : Bool)
  | utterEnd
  | utterError
deriving DecidableEq

structure SessionState where
  promise : PromiseState
  isSpeaking : Bool
  intervalActive : Bool
  /-- total number of pause/resume cycles issued by the keep-alive ticks. -/
  pauseResumes : Nat
  /-- the engine has reported not-speaking: a tick observed
  `speaking === false`, or `onend`/`onerror` fired. -/
  notSpeakingReported : Bool
  /-- value of the `isSpeaking` flag at the moment the promise resolved. -/
  speakingAtResolve : Option Bool
deriving DecidableEq

/-- State right after lines 168–180: `setIsSpeaking(true)`, the utterance
handed to the engine, the keep-alive interval started. -/
def initialSession : SessionState :=
  { promise := .pending, isSpeaking := true, intervalActive := true,
    pauseResumes := 0, notSpeakingReported := false, speakingAtResolve := none }

def sessionStep (s : SessionState) (e : TTSEvent) : SessionState :=
  match e with
  | .start => { s with isSpeaking := true }
  | .tick engineSpeaking =>
    if !s.intervalActive then s
    else if !engineSpeaking then
      { s with intervalActive := false, notSpeakingReported := true }
    else
      { s with pauseResumes := s.pauseResumes + 1 }
  | .utterEnd =>
    { s with intervalActive := false, isSpeaking := false,
             notSpeakingReported := true, promise := resolveP s.promise,
             speakingAtResolve :=
               if s.promise = .pending then some false else s.speakingAtResolve }
  | .utterError =>
    { s with intervalActive := false, isSpeaking := false,
             notSpeakingReported := true, promise := resolveP s.promise,
             speakingAtResolve :=
               if s.promise = .pending then some false else s.speakingAtResolve }

def runSession (events : List TTSEvent) : SessionState :=
  events.foldl sessionStep initialSession

/-- Observable outcome of one `speak` call. -/
structure SpeakOutcome where
  promise : PromiseState
  isSpeaking : Bool
  speakingAtResolve : Option Bool
deriving DecidableEq

/-- One `speak` call.  `speaking0` is the value of the `isSpeaking` flag when
the call is made (a previous utterance may still be in flight);
`constructThrows` selects the `catch` path of the `try` block; `events` is the
sequence of engine callbacks after the utterance is handed over. -/
def speakExec (supported : Bool) (speaking0 : Bool) (text : String)
    (constructThrows : Bool) (events : List TTSEvent) : SpeakOutcome :=
  if !supported then
    -- lines 112–116: resolve() without touching the flag
    { promise := resolveP .pending, isSpeaking := speaking0,
      speakingAtResolve := some speaking0 }
  else if sanitizeText text = "" then
    -- lines 118–123: resolve() without touching the flag
    { promise := resolveP .pending, isSpeaking := speaking0,
      speakingAtResolve := some speaking0 }
  else if constructThrows then
    -- lines 199–203: setIsSpeaking(false); resolve()
    { promise := resolveP .pending, isSpeaking := false,
      speakingAtResolve := some false }
  else
    let f := runSession events
    { promise := f.promise, isSpeaking := f.isSpeaking,
      speakingAtResolve := f.speakingAtResolve }

/-! ## ExpiringSubscriptionsWidget (unnamed source file, lines 12–101) -/

inductive Plan
  | basic
  | pro
deriving DecidableEq

structure Subscription where
  plan : Plan
  tts_used : Nat
  tts_limit : Nat
  start_date : Int
  /-- `end_date: string | null`, parsed by `new Date(...)`; modelled as the
  parsed timestamp in milliseconds. -/
  end_date : Option Int
  is_active : Bool
deriving DecidableEq

structure Student where
  id : String
  full_name : String
  class_ : String
  photo_url : Option String
  subscriptions : List Subscription
deriving DecidableEq

def msPerDay : Int := 1000 * 60 * 60 * 24

/-- The filter of `expiringStudents` (lines 44–51): the *first* subscription
must exist, be a `pro` plan, have an end date, and that end date must be
strictly after `now` and at most `thresholdTime`. -/
def passesExpiryFilter (now thresholdTime : Int) (s : Student) : Bool :=
  match s.subscriptions.head? with
  | none => false
  | some sub =>
    match sub.plan, sub.end_date with
    | Plan.pro, some e => decide (now < e) && decide (e ≤ thresholdTime)
    | _, _ => false

/-- `Math.ceil((endDate.getTime() - now.getTime()) / (1000*60*60*24))`:
integer ceiling division, `⌈a / b⌉ = -((-a) / b)` with floor division. -/
def daysLeftOf (now e : Int) : Int := -((-(e - now)) / msPerDay)

structure ExpiringEntry where
  /-- the `...student` spread: the entry carries the whole student record,
  including its full subscriptions array. -/
  student : Student
  daysLeft : Int
  endDate : Int
deriving DecidableEq

/-- The map of `expiringStudents` (lines 52–61).  The source reads
`subscriptions[0].end_date!` after the filter has guaranteed it exists; the
`getD 0` default is never reached from `expiringStudents`. -/
def toExpiringEntry (now : Int) (s : Student) : ExpiringEntry :=
  let e := ((s.subscriptions.head?).bind (fun sub => sub.end_date)).getD 0
  { student := s, daysLeft := daysLeftOf now e, endDate := e }

/-- The `.sort((a, b) => a.daysLeft - b.daysLeft)` comparator's order. -/
def entryLE (a b : ExpiringEntry) : Prop := a.daysLeft ≤ b.daysLeft

instance : DecidableRel entryLE :=
  fun a b => inferInstanceAs (Decidable (a.daysLeft ≤ b.daysLeft))

instance : IsTotal ExpiringEntry entryLE :=
  ⟨fun a b => Int.le_total a.daysLeft b.daysLeft⟩

instance : IsTrans ExpiringEntry entryLE :=
  ⟨fun _ _ _ h h' => le_trans h h'⟩

/-- `expiringStudents` (lines 38–63).  `thresholdDate` is `now` plus
`daysThreshold` civil days, i.e. `daysThreshold * 86400000` ms on the
fixed-length-day timeline used here.  JavaScript's `Array.prototype.sort` is
stable, and a stable ascending sort by `daysLeft` is exactly
`List.insertionSort entryLE`. -/
def expiringStudents (students : List Student) (daysThreshold : Int)
    (now : Int) : List ExpiringEntry :=
  List.insertionSort entryLE
    ((students.filter
        (passesExpiryFilter now (now + daysThreshold * msPerDay))).map
      (toExpiringEntry now))

inductive BadgeVariant
  | destructive
  | secondary
  | outline
deriving DecidableEq

/-- `getUrgencyBadge` (lines 78–82). -/
def getUrgencyBadge (daysLeft : Int) : String × BadgeVariant :=
  if daysLeft ≤ 1 then ("Tomorrow!", .destructive)
  else if daysLeft ≤ 3 then (toString daysLeft ++ " days", .secondary)
  else (toString daysLeft ++ " days", .outline)

/-! ## Agreement relation and projection used for the first-subscription
dependence analysis of the widget -/

/-- Two students agree on the identity fields and on the first element of the
subscriptions array. -/
def studentAgrees (a b : Student) : Bool :=
  a.id == b.id && a.full_name == b.full_name && a.class_ == b.class_ &&
  decide (a.photo_url = b.photo_url) &&
  decide (a.subscriptions.head? = b.subscriptions.head?)

/-- Pointwise agreement of two input lists. -/
def inputsAgree (l1 l2 : List Student) : Bool :=
  l1.length == l2.length &&
  (l1.zip l2).all (fun p => studentAgrees p.1 p.2)

/-- Everything the widget displays about an entry: identity fields, days
left, end date — the entry minus the raw subscriptions array it carries. -/
structure EntryView where
  id : String
  full_name : String
  class_ : String
  photo_url : Option String
  daysLeft : Int
  endDate : Int
deriving DecidableEq

def entryView (e : ExpiringEntry) : EntryView :=
  { id := e.student.id, full_name := e.student.full_name,
    class_ := e.student.class_, photo_url := e.student.photo_url,
    daysLeft := e.daysLeft, endDate := e.endDate }

/-! ## Concrete fixtures used by the witnesses and counterexamples -/

def subPro (e : Int) : Subscription := ⟨Plan.pro, 0, 100, 0, some e, true⟩

def subBasic (e : Int) : Subscription := ⟨Plan.basic, 0, 100, 0, some e, true⟩

def demoStudent (i : String) (sub : Subscription) : Student :=
  ⟨i, i, "5", none, [sub]⟩

/-- Pro students with end dates at now+0.5, +2, +5 and +10 days (with
`now = 0`), in scrambled input order, plus a basic-plan student with an end
date inside the window. -/
def demoStudents : List Student :=
  [demoStudent "s4" (subPro 864000000), demoStudent "s2" (subPro 172800000),
   demoStudent "s1" (subPro 43200000), demoStudent "s3" (subPro 432000000),
   demoStudent "s5" (subBasic 172800000)]

/-- Same identity and same first subscription as `stuB`… -/
def stuA : Student := ⟨"s1", "N", "5", none, [subPro 172800000]⟩

/-- …but a different subscriptions tail after index 0. -/
def stuB : Student := ⟨"s1", "N", "5", none, [subPro 172800000, subBasic 1]⟩

/-! ## Session-state helper lemmas -/

lemma sessionStep_promise_resolved (s : SessionState) (e : TTSEvent)
    (h : s.promise = PromiseState.resolved) :
    (sessionStep s e).promise = PromiseState.resolved := by
  cases e with
  | start => exact h
  | tick b => by_cases hi : s.intervalActive <;> by_cases hb : b <;>
      simp [sessionStep, hi, hb, h]
  | utterEnd => simp [sessionStep, h, resolveP]
  | utterError => simp [sessionStep, h, resolveP]

lemma foldl_promise_resolved (events : List TTSEvent) :
    ∀ s : SessionState, s.promise = PromiseState.resolved →
      (events.foldl sessionStep s).promise = PromiseState.resolved := by
  induction events with
  | nil => intro s h; exact h
  | cons e t ih => intro s h; exact ih _ (sessionStep_promise_resolved s e h)

lemma sessionStep_promise_cases (s : SessionState) (e : TTSEvent)
    (h : s.promise = PromiseState.pending ∨ s.promise = PromiseState.resolved) :
    (sessionStep s e).promise = PromiseState.pending ∨
      (sessionStep s e).promise = PromiseState.resolved := by
  cases e with
  | start => exact h
  | tick b => by_cases hi : s.intervalActive <;> by_cases hb : b <;>
      simp [sessionStep, hi, hb, h]
  | utterEnd => rcases h with h | h <;> simp [sessionStep, h, resolveP]
  | utterError => rcases h with h | h <;> simp [sessionStep, h, resolveP]

lemma foldl_promise_cases (events : List TTSEvent) :
    ∀ s : SessionState,
      s.promise = PromiseState.pending ∨ s.promise = PromiseState.resolved →
      (events.foldl sessionStep s).promise = PromiseState.pending ∨
        (events.foldl sessionStep s).promise = PromiseState.resolved := by
  induction events with
  | nil => intro s h; exact h
  | cons e t ih => intro s h; exact ih _ (sessionStep_promise_cases s e h)

lemma foldl_promise_settled (events : List TTSEvent) :
    ∀ s : SessionState,
      s.promise = PromiseState.pending ∨ s.promise = PromiseState.resolved →
      (TTSEvent.utterEnd ∈ events ∨ TTSEvent.utterError ∈ events) →
      (events.foldl sessionStep s).promise = PromiseState.resolved := by
  induction events with
  | nil => intro s _ hmem; rcases hmem with h | h <;> simp at h
  | cons e t ih =>
    intro s hp hmem
    by_cases he : e = TTSEvent.utterEnd ∨ e = TTSEvent.utterError
    · have hres : (sessionStep s e).promise = PromiseState.resolved := by
        rcases he with he | he <;> subst he <;>
          rcases hp with h | h <;> simp [sessionStep, h, resolveP]
      exact foldl_promise_resolved t _ hres
    · push_neg at he
      have hmem' : TTSEvent.utterEnd ∈ t ∨ TTSEvent.utterError ∈ t := by
        rcases hmem with h | h
        · rcases List.mem_cons.mp h with h | h
          · exact absurd h.symm he.1
          · exact Or.inl h
        · rcases List.mem_cons.mp h with h | h
          · exact absurd h.symm he.2
          · exact Or.inr h
      exact ih _ (sessionStep_promise_cases s e hp) hmem'

lemma sessionStep_speakingAtResolve (s : SessionState) (e : TTSEvent)
    (h : s.speakingAtResolve = none ∨ s.speakingAtResolve = some false) :
    (sessionStep s e).speakingAtResolve = none ∨
      (sessionStep s e).speakingAtResolve = some false := by
  cases e with
  | start => exact h
  | tick b => by_cases hi : s.intervalActive <;> by_cases hb : b <;>
      simp [sessionStep, hi, hb, h]
  | utterEnd =>
    by_cases hp : s.promise = PromiseState.pending <;> simp [sessionStep, hp, h]
  | utterError =>
    by_cases hp : s.promise = PromiseState.pending <;> simp [sessionStep, hp, h]

lemma foldl_speakingAtResolve (events : List TTSEvent) :
    ∀ s : SessionState,
      s.speakingAtResolve = none ∨ s.speakingAtResolve = some false →
      (events.foldl sessionStep s).speakingAtResolve = none ∨
        (events.foldl sessionStep s).speakingAtResolve = some false := by
  induction events with
  | nil => intro s h; exact h
  | cons e t ih => intro s h; exact ih _ (sessionStep_speakingAtResolve s e h)

/-- Once the engine has reported not-speaking the interval is cleared, and a
step of a cleared, reported session changes neither flag nor the
pause/resume count. -/
lemma sessionStep_frozen (s : SessionState) (e : TTSEvent)
    (hr : s.notSpeakingReported = true) (hi : s.intervalActive = false) :
    (sessionStep s e).notSpeakingReported = true ∧
      (sessionStep s e).intervalActive = false ∧
      (sessionStep s e).pauseResumes = s.pauseResumes := by
  cases e with
  | start => exact ⟨hr, hi, rfl⟩
  | tick b => simp [sessionStep, hi, hr]
  | utterEnd => simp [sessionStep, hr]
  | utterError => simp [sessionStep, hr]

lemma foldl_frozen (events : List TTSEvent) :
    ∀ s : SessionState, s.notSpeakingReported = true →
      s.intervalActive = false →
      (events.foldl sessionStep s).notSpeakingReported = true ∧
        (events.foldl sessionStep s).intervalActive = false ∧
        (events.foldl sessionStep s).pauseResumes = s.pauseResumes := by
  induction events with
  | nil => intro s hr hi; exact ⟨hr, hi, rfl⟩
  | cons e t ih =>
    intro s hr hi
    obtain ⟨hr', hi', hp'⟩ := sessionStep_frozen s e hr hi
    obtain ⟨hr'', hi'', hp''⟩ := ih _ hr' hi'
    exact ⟨hr'', hi'', hp''.trans hp'⟩

/-- The invariant "reported implies interval cleared" is preserved by every
step. -/
lemma sessionStep_reported_inactive (s : SessionState) (e : TTSEvent)
    (h : s.notSpeakingReported = true → s.intervalActive = false) :
    (sessionStep s e).notSpeakingReported = true →
      (sessionStep s e).intervalActive = false := by
  cases e with
  | start => exact h
  | tick b =>
    by_cases hi : s.intervalActive
    · by_cases hb : b
      · intro hr
        simp [sessionStep, hi, hb] at hr ⊢
        exact absurd hi (by simp [h hr])
      · simp [sessionStep, hi, hb]
    · intro _
      have hif : s.intervalActive = false := by simpa using hi
      simp [sessionStep, hif]
  | utterEnd => simp [sessionStep]
  | utterError => simp [sessionStep]

lemma foldl_reported_inactive (events : List TTSEvent) :
    ∀ s : SessionState,
      (s.notSpeakingReported = true → s.intervalActive = false) →
      (events.foldl sessionStep s).notSpeakingReported = true →
      (events.foldl sessionStep s).intervalActive = false := by
  induction events with
  | nil => intro s h; exact h
  | cons e t ih => intro s h; exact ih _ (sessionStep_reported_inactive s e h)

/-! ## Expiry-widget helper lemmas -/

lemma mem_expiring_iff (students : List Student) (d now : Int)
    (en : ExpiringEntry) :
    en ∈ expiringStudents students d now ↔
      ∃ s, s ∈ students ∧
        passesExpiryFilter now (now + d * msPerDay) s = true ∧
        en = toExpiringEntry now s := by
  unfold expiringStudents
  rw [(List.perm_insertionSort entryLE _).mem_iff]
  constructor
  · intro h
    obtain ⟨s, hs, rfl⟩ := List.mem_map.mp h
    obtain ⟨hmem, hp⟩ := List.mem_filter.mp hs
    exact ⟨s, hmem, hp, rfl⟩
  · rintro ⟨s, hmem, hp, rfl⟩
    exact List.mem_map.mpr ⟨s, List.mem_filter.mpr ⟨hmem, hp⟩, rfl⟩

/-- A student passing the filter has a first subscription whose end date is
strictly in the future, and the derived entry's fields come from it. -/
lemma passes_daysLeft (now t : Int) (s : Student)
    (hp : passesExpiryFilter now t s = true) :
    now < (toExpiringEntry now s).endDate ∧
      (toExpiringEntry now s).daysLeft =
        daysLeftOf now (toExpiringEntry now s).endDate := by
  unfold passesExpiryFilter at hp
  cases hh : s.subscriptions.head? with
  | none => simp [hh] at hp
  | some sub =>
    simp only [hh] at hp
    cases hpl : sub.plan with
    | basic => cases hed : sub.end_date <;> simp [hpl, hed] at hp
    | pro =>
      cases hed : sub.end_date with
      | none => simp [hpl, hed] at hp
      | some e =>
        simp only [hpl, hed, Bool.and_eq_true, decide_eq_true_eq] at hp
        refine ⟨?_, rfl⟩
        show now <
          ((s.subscriptions.head?).bind (fun sub => sub.end_date)).getD 0
        rw [hh]
        simpa [hed] using hp.1

/-! ## C1 — expiry widget: filter rule, days-left, ascending sort -/

/-- **C1.** An entry is in the widget's derived list iff some input student
has a first subscription on the `pro` plan with an end date strictly after
`now` and at most `now + threshold` days, the entry carrying days-left
`⌈(end − now) / msPerDay⌉` (`daysLeftOf` is exactly that ceiling); the list
is sorted ascending by days-left; and on the four pro students with end
dates at now+0.5d/+2d/+5d/+10d plus an in-window basic student, threshold 7,
exactly the first three are returned in ascending order. -/
theorem expiringStudents_correct :
    (∀ (students : List Student) (d now : Int) (en : ExpiringEntry),
      en ∈ expiringStudents students d now ↔
        ∃ s, s ∈ students ∧
          passesExpiryFilter now (now + d * msPerDay) s = true ∧
          en = toExpiringEntry now s) ∧
    (∀ (students : List Student) (d now : Int),
      List.Sorted entryLE (expiringStudents students d now)) ∧
    (∀ now e : Int,
      (daysLeftOf now e - 1) * msPerDay < e - now ∧
        e - now ≤ daysLeftOf now e * msPerDay) ∧
    (expiringStudents demoStudents 7 0).map
        (fun en => (en.student.id, en.daysLeft)) =
      [("s1", 1), ("s2", 2), ("s3", 5)] := by
  refine ⟨mem_expiring_iff, ?_, ?_, by decide⟩
  · intro students d now
    exact List.sorted_insertionSort entryLE _
  · intro now e
    simp only [daysLeftOf, msPerDay]
    omega

/-! ## C10 — every listed entry has days-left ≥ 1; the critical band is
exactly days-left = 1 -/

/-- **C10.** Inclusion requires an end date strictly after `now`, so each
entry's days-left (the ceiling of a positive quantity) is at least 1; hence
the `daysLeft ≤ 1` guard of the critical badge holds exactly at
`daysLeft = 1`, and the badge is `destructive` exactly there. -/
theorem expiring_daysLeft_ge_one (students : List Student) (d now : Int)
    (en : ExpiringEntry) (h : en ∈ expiringStudents students d now) :
    1 ≤ en.daysLeft ∧ (en.daysLeft ≤ 1 ↔ en.daysLeft = 1) ∧
      ((getUrgencyBadge en.daysLeft).2 = BadgeVariant.destructive ↔
        en.daysLeft = 1) := by
  obtain ⟨s, _, hp, rfl⟩ := (mem_expiring_iff students d now en).mp h
  obtain ⟨hlt, hdl⟩ := passes_daysLeft now _ s hp
  have h1 : 1 ≤ (toExpiringEntry now s).daysLeft := by
    rw [hdl]
    simp only [daysLeftOf, msPerDay]
    omega
  refine ⟨h1, by omega, ?_⟩
  unfold getUrgencyBadge
  by_cases hle : (toExpiringEntry now s).daysLeft ≤ 1
  · simp [hle]; omega
  · have : ¬ (toExpiringEntry now s).daysLeft = 1 := by omega
    by_cases hle3 : (toExpiringEntry now s).daysLeft ≤ 3 <;>
      simp [hle, hle3, this]

theorem expiring_daysLeft_ge_one_witness :
    1 ≤ (toExpiringEntry 0 (demoStudent "s1" (subPro 43200000))).daysLeft ∧
      ((toExpiringEntry 0 (demoStudent "s1" (subPro 43200000))).daysLeft ≤ 1 ↔
        (toExpiringEntry 0 (demoStudent "s1" (subPro 43200000))).daysLeft = 1) ∧
      ((getUrgencyBadge
          (toExpiringEntry 0 (demoStudent "s1" (subPro 43200000))).daysLeft).2 =
          BadgeVariant.destructive ↔
        (toExpiringEntry 0 (demoStudent "s1" (subPro 43200000))).daysLeft = 1) :=
  expiring_daysLeft_ge_one demoStudents 7 0 _ (by decide)

/-! ## C2 — getBestVoice priority chain -/

/-- **C2.** `getBestVoice` equals the spec's fallback chain (first exact
`hi-IN`, else first exact `en-IN`, else first `en*`, else the first voice),
returns `none` on an empty catalog — in which case `speak` binds no voice
and sets the utterance language to `"hi-IN"` — and behaves as specified on
the spec's two example catalogs. -/
theorem getBestVoice_priority :
    (∀ voices : List Voice, getBestVoice voices = bestVoiceSpec voices) ∧
    getBestVoice [] = none ∧
    utteranceVoiceFor [] = none ∧
    utteranceLangFor [] = "hi-IN" ∧
    getBestVoice [⟨"a", "en-US"⟩, ⟨"b", "en-IN"⟩, ⟨"c", "hi-IN"⟩] =
      some ⟨"c", "hi-IN"⟩ ∧
    getBestVoice [⟨"a", "en-US"⟩, ⟨"b", "en-GB"⟩] = some ⟨"a", "en-US"⟩ := by
  refine ⟨?_, by decide, by decide, by decide, by decide, by decide⟩
  intro voices
  cases voices with
  | nil => decide
  | cons v vs =>
    unfold getBestVoice bestVoiceSpec
    cases h1 : (v :: vs).find? (fun v => v.lang == "hi-IN") <;>
      cases h2 : (v :: vs).find? (fun v => v.lang == "en-IN") <;>
        cases h3 : (v :: vs).find? (fun v => strStartsWith v.lang "en") <;>
          simp [Option.orElse]

/-! ## C3 — the promise returned by speak resolves and never rejects -/

/-- **C3.** On every path the promise is settled by `resolve`, never by
`reject`: the final promise state is never `rejected`; the
unsupported-platform, empty-sanitized-text and construction-exception paths
resolve immediately; and whenever the engine fires `end` or `error` the
promise is resolved. -/
theorem speak_never_rejects :
    (∀ (supported speaking0 : Bool) (text : String) (constructThrows : Bool)
        (events : List TTSEvent),
      (speakExec supported speaking0 text constructThrows events).promise =
          PromiseState.pending ∨
        (speakExec supported speaking0 text constructThrows events).promise =
          PromiseState.resolved) ∧
    (∀ (speaking0 : Bool) (text : String) (constructThrows : Bool)
        (events : List TTSEvent),
      (speakExec false speaking0 text constructThrows events).promise =
        PromiseState.resolved) ∧
    (∀ (supported speaking0 : Bool) (constructThrows : Bool)
        (events : List TTSEvent) (text : String), sanitizeText text = "" →
      (speakExec supported speaking0 text constructThrows events).promise =
        PromiseState.resolved) ∧
    (∀ (speaking0 : Bool) (text : String) (events : List TTSEvent),
      (speakExec true speaking0 text true events).promise =
        PromiseState.resolved) ∧
    (∀ (supported speaking0 : Bool) (text : String) (constructThrows : Bool)
        (events : List TTSEvent),
      TTSEvent.utterEnd ∈ events ∨ TTSEvent.utterError ∈ events →
      (speakExec supported speaking0 text constructThrows events).promise =
        PromiseState.resolved) := by
  have hbranch : ∀ (supported speaking0 : Bool) (text : String)
      (constructThrows : Bool) (events : List TTSEvent),
      (speakExec supported speaking0 text constructThrows events).promise =
          PromiseState.resolved ∨
        (speakExec supported speaking0 text constructThrows events).promise =
          (runSession events).promise := by
    intro supported speaking0 text constructThrows events
    cases supported with
    | false => exact Or.inl rfl
    | true =>
      by_cases ht : sanitizeText text = ""
      · exact Or.inl (by simp [speakExec, ht, resolveP])
      · cases constructThrows with
        | true => exact Or.inl (by simp [speakExec, ht, resolveP])
        | false => exact Or.inr (by simp [speakExec, ht])
  refine ⟨?_, ?_, ?_, ?_, ?_⟩
  · intro supported speaking0 text constructThrows events
    rcases hbranch supported speaking0 text constructThrows events with h | h
    · exact Or.inr h
    · rw [h]
      exact foldl_promise_cases events initialSession (Or.inl rfl)
  · intro speaking0 text constructThrows events
    rfl
  · intro supported speaking0 constructThrows events text ht
    cases supported with
    | false => rfl
    | true => simp [speakExec, ht, resolveP]
  · intro speaking0 text events
    by_cases ht : sanitizeText text = "" <;> simp [speakExec, ht, resolveP]
  · intro supported speaking0 text constructThrows events hmem
    rcases hbranch supported speaking0 text constructThrows events with h | h
    · exact h
    · rw [h]
      exact foldl_promise_settled events initialSession (Or.inl rfl) hmem

theorem speak_never_rejects_witness :
    (speakExec true false "hello" false
        [TTSEvent.start, TTSEvent.tick true, TTSEvent.utterEnd]).promise =
      PromiseState.resolved :=
  speak_never_rejects.2.2.2.2 true false "hello" false
    [TTSEvent.start, TTSEvent.tick true, TTSEvent.utterEnd]
    (Or.inl (by decide))

/-! ## C6 — speaking flag at the moment the promise resolves -/

/-- C6 as stated is false: the empty-sanitized-text early exit resolves
without touching the flag, so a call made while a previous utterance still
has the flag `true` resolves with the flag still `true` (decidably checked
at `speakExec true true "😀" false []`). -/
theorem speak_emptyText_keeps_speaking :
    (speakExec true true "😀" false []).promise = PromiseState.resolved ∧
      (speakExec true true "😀" false []).speakingAtResolve = some true := by
  decide

/-- **C6 (amended).** If the speaking flag is `false` when `speak` is called
(no utterance already in flight), then whatever path the call takes —
early no-op exits, construction exception, engine end or error — the flag
is `false` at the moment the promise resolves. -/
theorem speak_resolves_not_speaking :
    ∀ (supported : Bool) (text : String) (constructThrows : Bool)
      (events : List TTSEvent),
      (speakExec supported false text constructThrows events).speakingAtResolve
          = none ∨
        (speakExec supported false text constructThrows events).speakingAtResolve
          = some false := by
  intro supported text constructThrows events
  cases supported with
  | false => simp [speakExec]
  | true =>
    by_cases ht : sanitizeText text = ""
    · simp [speakExec, ht]
    · cases constructThrows with
      | true => simp [speakExec, ht]
      | false =>
        have hx : (speakExec true false text false events).speakingAtResolve =
            (runSession events).speakingAtResolve := by
          simp [speakExec, ht]
        rw [hx]
        exact foldl_speakingAtResolve events initialSession (Or.inl rfl)

/-! ## C7 — the keep-alive timer stops once the engine reports
not-speaking -/

/-- **C7.** Once a session's trace has made the engine report not-speaking
(a tick observing `speaking === false`, or the `end`/`error` callback), the
keep-alive interval is cleared and no later event adds a pause/resume
cycle. -/
theorem keepAlive_stops (pre post : List TTSEvent)
    (h : (runSession pre).notSpeakingReported = true) :
    (runSession (pre ++ post)).pauseResumes = (runSession pre).pauseResumes ∧
      (runSession (pre ++ post)).intervalActive = false := by
  have hi : (runSession pre).intervalActive = false :=
    foldl_reported_inactive pre initialSession
      (by intro h'; simp [initialSession] at h') h
  have hsplit : runSession (pre ++ post) =
      post.foldl sessionStep (runSession pre) := by
    unfold runSession
    exact List.foldl_append sessionStep initialSession pre post
  obtain ⟨_, hi', hp'⟩ := foldl_frozen post (runSession pre) h hi
  rw [hsplit]
  exact ⟨hp', hi'⟩

theorem keepAlive_stops_witness :
    (runSession ([TTSEvent.tick true, TTSEvent.tick false] ++
        [TTSEvent.tick true, TTSEvent.utterEnd])).pauseResumes =
      (runSession [TTSEvent.tick true, TTSEvent.tick false]).pauseResumes ∧
      (runSession ([TTSEvent.tick true, TTSEvent.tick false] ++
          [TTSEvent.tick true, TTSEvent.utterEnd])).intervalActive = false :=
  keepAlive_stops [TTSEvent.tick true, TTSEvent.tick false]
    [TTSEvent.tick true, TTSEvent.utterEnd] (by decide)

/-! ## C8 — voice picker labels -/

/-- **C8.** The label is `"<name> - <language label>"` with the fixed
mapping for the five known tags and the raw tag for any unmapped tag; in
particular `{name := "X", lang := "en-IN"}` is labelled exactly
`"X - 🇮🇳 English (India)"`. -/
theorem getVoiceLabel_spec :
    (∀ v : Voice, langLabels v.lang = none →
      getVoiceLabel v = v.name ++ " - " ++ v.lang) ∧
    (∀ name : String,
      getVoiceLabel ⟨name, "hi-IN"⟩ = name ++ " - " ++ "🇮🇳 Hindi" ∧
      getVoiceLabel ⟨name, "hi"⟩ = name ++ " - " ++ "🇮🇳 Hindi" ∧
      getVoiceLabel ⟨name, "en-IN"⟩ = name ++ " - " ++ "🇮🇳 English (India)" ∧
      getVoiceLabel ⟨name, "en-US"⟩ = name ++ " - " ++ "🇺🇸 English (US)" ∧
      getVoiceLabel ⟨name, "en-GB"⟩ = name ++ " - " ++ "🇬🇧 English (UK)") ∧
    getVoiceLabel ⟨"X", "en-IN"⟩ = "X - 🇮🇳 English (India)" := by
  refine ⟨?_, ?_, by decide⟩
  · intro v h
    unfold getVoiceLabel
    rw [h]
    rfl
  · intro name
    exact ⟨rfl, rfl, rfl, rfl, rfl⟩

theorem getVoiceLabel_spec_witness :
    getVoiceLabel ⟨"Y", "fr-FR"⟩ = "Y" ++ " - " ++ "fr-FR" :=
  getVoiceLabel_spec.1 ⟨"Y", "fr-FR"⟩ (by decide)

/-! ## C9 — dependence of the widget's output on the first subscription
only -/

lemma studentAgrees_fields (a b : Student) (h : studentAgrees a b = true) :
    a.id = b.id ∧ a.full_name = b.full_name ∧ a.class_ = b.class_ ∧
      a.photo_url = b.photo_url ∧
      a.subscriptions.head? = b.subscriptions.head? := by
  unfold studentAgrees at h
  simp only [Bool.and_eq_true, beq_iff_eq, decide_eq_true_eq] at h
  exact ⟨h.1.1.1.1, h.1.1.1.2, h.1.1.2, h.1.2, h.2⟩

lemma studentAgrees_filter (n t : Int) (a b : Student)
    (h : studentAgrees a b = true) :
    passesExpiryFilter n t a = passesExpiryFilter n t b := by
  obtain ⟨_, _, _, _, hh⟩ := studentAgrees_fields a b h
  unfold passesExpiryFilter
  rw [hh]

lemma studentAgrees_view (n : Int) (a b : Student)
    (h : studentAgrees a b = true) :
    entryView (toExpiringEntry n a) = entryView (toExpiringEntry n b) := by
  obtain ⟨h1, h2, h3, h4, h5⟩ := studentAgrees_fields a b h
  unfold entryView toExpiringEntry
  simp [h1, h2, h3, h4, h5]

lemma inputsAgree_cons (a b : Student) (t1 t2 : List Student)
    (h : inputsAgree (a :: t1) (b :: t2) = true) :
    studentAgrees a b = true ∧ inputsAgree t1 t2 = true := by
  unfold inputsAgree at h ⊢
  simp only [List.length_cons, List.zip_cons_cons, List.all_cons,
    Bool.and_eq_true, beq_iff_eq] at h ⊢
  exact ⟨h.2.1, by omega, h.2.2⟩

lemma agree_filter_map (n t : Int) :
    ∀ l1 l2 : List Student, inputsAgree l1 l2 = true →
      List.Forall₂ (fun x y => entryView x = entryView y)
        ((l1.filter (passesExpiryFilter n t)).map (toExpiringEntry n))
        ((l2.filter (passesExpiryFilter n t)).map (toExpiringEntry n)) := by
  intro l1
  induction l1 with
  | nil =>
    intro l2 h
    cases l2 with
    | nil => simp
    | cons b t2 => simp [inputsAgree] at h
  | cons a t1 ih =>
    intro l2 h
    cases l2 with
    | nil => simp [inputsAgree] at h
    | cons b t2 =>
      obtain ⟨hab, ht⟩ := inputsAgree_cons a b t1 t2 h
      by_cases hpa : passesExpiryFilter n t a = true
      · have hpb : passesExpiryFilter n t b = true := by
          rw [← studentAgrees_filter n t a b hab]; exact hpa
        simp only [List.filter_cons, hpa, hpb, if_true, List.map_cons]
        exact List.Forall₂.cons (studentAgrees_view n a b hab) (ih t2 ht)
      · have hpb : ¬ passesExpiryFilter n t b = true := by
          rw [← studentAgrees_filter n t a b hab]; exact hpa
        simp only [List.filter_cons, hpa, hpb, if_false, Bool.false_eq_true]
        exact ih t2 ht

lemma entryView_daysLeft (a b : ExpiringEntry)
    (h : entryView a = entryView b) : a.daysLeft = b.daysLeft :=
  congrArg EntryView.daysLeft h

lemma orderedInsert_viewEq (a b : ExpiringEntry)
    (hab : entryView a = entryView b) :
    ∀ L1 L2 : List ExpiringEntry,
      List.Forall₂ (fun x y => entryView x = entryView y) L1 L2 →
      List.Forall₂ (fun x y => entryView x = entryView y)
        (List.orderedInsert entryLE a L1) (List.orderedInsert entryLE b L2) := by
  intro L1 L2 h
  induction h with
  | nil => exact List.Forall₂.cons hab List.Forall₂.nil
  | @cons x y tx ty hxy hrest ih =>
    have hd : x.daysLeft = y.daysLeft := entryView_daysLeft x y hxy
    have had : a.daysLeft = b.daysLeft := entryView_daysLeft a b hab
    by_cases hle : entryLE a x
    · have hle' : entryLE b y := by
        unfold entryLE at hle ⊢; rw [← hd, ← had]; exact hle
      simp only [List.orderedInsert, if_pos hle, if_pos hle']
      exact List.Forall₂.cons hab (List.Forall₂.cons hxy hrest)
    · have hle' : ¬ entryLE b y := by
        unfold entryLE at hle ⊢; rw [← hd, ← had]; exact hle
      simp only [List.orderedInsert, if_neg hle, if_neg hle']
      exact List.Forall₂.cons hxy ih

lemma sort_viewEq :
    ∀ L1 L2 : List ExpiringEntry,
      List.Forall₂ (fun x y => entryView x = entryView y) L1 L2 →
      List.Forall₂ (fun x y => entryView x = entryView y)
        (List.insertionSort entryLE L1) (List.insertionSort entryLE L2) := by
  intro L1 L2 h
  induction h with
  | nil => exact List.Forall₂.nil
  | @cons x y tx ty hxy hrest ih =>
    simp only [List.insertionSort]
    exact orderedInsert_viewEq x y hxy _ _ ih

lemma forall₂_map_entryView :
    ∀ L1 L2 : List ExpiringEntry,
      List.Forall₂ (fun x y => entryView x = entryView y) L1 L2 →
      L1.map entryView = L2.map entryView := by
  intro L1 L2 h
  induction h with
  | nil => rfl
  | @cons x y tx ty hxy hrest ih => simp only [List.map_cons, hxy, ih]

/-- C9 as stated is false: each output entry spreads the whole student
record, including the raw subscriptions array, so two inputs agreeing on
identity fields and on the first subscription can still produce different
output lists (they differ in the subscriptions tail they carry). -/
theorem expiring_depends_beyond_first :
    inputsAgree [stuA] [stuB] = true ∧
      decide (expiringStudents [stuA] 7 0 = expiringStudents [stuB] 7 0) =
        false := by
  decide

/-- **C9 (amended).** Everything the widget derives and displays — which
students appear, their identity fields, days-left, end date, and the order —
depends only on the identity fields and the first subscription of each
input student: on inputs agreeing there, the outputs are identical after
projecting away the subscriptions array carried by the `...student` spread.
In particular a qualifying `pro` subscription at an index after the first is
ignored. -/
theorem expiring_firstSubscription_view (l1 l2 : List Student) (d now : Int)
    (h : inputsAgree l1 l2 = true) :
    (expiringStudents l1 d now).map entryView =
      (expiringStudents l2 d now).map entryView := by
  unfold expiringStudents
  exact forall₂_map_entryView _ _
    (sort_viewEq _ _ (agree_filter_map now (now + d * msPerDay) l1 l2 h))

theorem expiring_firstSubscription_view_witness :
    (expiringStudents [stuA] 7 0).map entryView =
      (expiringStudents [stuB] 7 0).map entryView :=
  expiring_firstSubscription_view [stuA] [stuB] 7 0 (by decide)

/-! ## Sanitizer: basic lemmas about the delimiter scanner -/

lemma noLineTerm_cons (c : Char) (r : List Char) :
    noLineTerm (c :: r) = true ↔ isLineTerm c = false ∧ noLineTerm r = true := by
  simp [noLineTerm]

lemma noLineTerm_sublist (l1 l2 : List Char) (hs : List.Sublist l1 l2)
    (h : noLineTerm l2 = true) : noLineTerm l1 = true := by
  rw [noLineTerm, List.all_eq_true] at h ⊢
  exact fun c hc => h c (hs.subset hc)

lemma noLineTerm_append (l1 l2 : List Char) :
    noLineTerm (l1 ++ l2) = true ↔
      noLineTerm l1 = true ∧ noLineTerm l2 = true := by
  simp [noLineTerm]

lemma startsWithD_append : ∀ d l : List Char, startsWithD d l = true →
    l = d ++ l.drop d.length := by
  intro d
  induction d with
  | nil => intro l _; simp
  | cons a as ih =>
    intro l h
    cases l with
    | nil => simp [startsWithD] at h
    | cons b bs =>
      simp only [startsWithD, Bool.and_eq_true, beq_iff_eq] at h
      obtain ⟨rfl, h2⟩ := h
      simpa using ih bs h2

lemma startsWithD_single (d c : Char) (r : List Char) :
    startsWithD [d] (c :: r) = (d == c) := by
  simp [startsWithD]

lemma findCloseD_eq (d : List Char) :
    ∀ l cnt rem, findCloseD d l = some (cnt, rem) → l = cnt ++ d ++ rem := by
  intro l
  induction l with
  | nil => intro cnt rem h; simp [findCloseD] at h
  | cons c r ih =>
    intro cnt rem h
    unfold findCloseD at h
    by_cases hs : startsWithD d (c :: r) = true
    · rw [if_pos hs] at h
      simp only [Option.some.injEq, Prod.mk.injEq] at h
      obtain ⟨h1, h2⟩ := h
      subst h1; subst h2
      simpa using startsWithD_append d (c :: r) hs
    · rw [if_neg hs] at h
      by_cases hl : isLineTerm c = true
      · rw [if_pos hl] at h; simp at h
      · rw [if_neg hl] at h
        cases hf : findCloseD d r with
        | none => rw [hf] at h; simp at h
        | some p =>
          obtain ⟨cnt', rem'⟩ := p
          rw [hf] at h
          simp only [Option.map_some', Option.some.injEq, Prod.mk.injEq] at h
          obtain ⟨h1, h2⟩ := h
          subst h1; subst h2
          have := ih cnt' rem' hf
          simp [this]

lemma findCloseD_single_cnt (d : Char) :
    ∀ l cnt rem, findCloseD [d] l = some (cnt, rem) → d ∉ cnt := by
  intro l
  induction l with
  | nil => intro cnt rem h; simp [findCloseD] at h
  | cons c r ih =>
    intro cnt rem h
    unfold findCloseD at h
    by_cases hs : startsWithD [d] (c :: r) = true
    · rw [if_pos hs] at h
      simp only [Option.some.injEq, Prod.mk.injEq] at h
      obtain ⟨h1, _⟩ := h
      subst h1
      simp
    · rw [if_neg hs] at h
      by_cases hl : isLineTerm c = true
      · rw [if_pos hl] at h; simp at h
      · rw [if_neg hl] at h
        cases hf : findCloseD [d] r with
        | none => rw [hf] at h; simp at h
        | some p =>
          obtain ⟨cnt', rem'⟩ := p
          rw [hf] at h
          simp only [Option.map_some', Option.some.injEq, Prod.mk.injEq] at h
          obtain ⟨h1, _⟩ := h
          subst h1
          have hcd : ¬ d = c := by
            intro hdc
            exact hs (by simp [startsWithD_single, hdc])
          simp only [List.mem_cons]
          rintro (h | h)
          · exact hcd h
          · exact ih cnt' rem' hf h

lemma findCloseD_none_of_not_mem (d : Char) :
    ∀ l, d ∉ l → findCloseD [d] l = none := by
  intro l
  induction l with
  | nil => intro _; rfl
  | cons c r ih =>
    intro h
    have hcd : ¬ d = c := fun hdc => h (by simp [hdc])
    have hr : d ∉ r := fun hm => h (by simp [hm])
    unfold findCloseD
    rw [if_neg (by simp [startsWithD_single, hcd])]
    by_cases hl : isLineTerm c = true
    · rw [if_pos hl]
    · rw [if_neg hl, ih hr]
      rfl

lemma findCloseD_none_not_mem (d : Char) :
    ∀ l, noLineTerm l = true → findCloseD [d] l = none → d ∉ l := by
  intro l
  induction l with
  | nil => intro _ _; simp
  | cons c r ih =>
    intro hnl h
    unfold findCloseD at h
    by_cases hs : startsWithD [d] (c :: r) = true
    · rw [if_pos hs] at h; simp at h
    · rw [if_neg hs] at h
      obtain ⟨hlt, hnr⟩ := (noLineTerm_cons c r).mp hnl
      rw [if_neg (by simp [hlt])] at h
      have hfr : findCloseD [d] r = none := by
        cases hf : findCloseD [d] r with
        | none => rfl
        | some p => rw [hf] at h; simp at h
      have hcd : ¬ d = c := by
        intro hdc
        exact hs (by simp [startsWithD_single, hdc])
      simp only [List.mem_cons]
      rintro (hx | hx)
      · exact hcd hx
      · exact ih hnr hfr hx

/-! ## Sanitizer: sublist and identity lemmas for the delimiter passes -/

lemma stripDelimGo_sublist (d : List Char) :
    ∀ fuel cs, List.Sublist (stripDelimGo d fuel cs) cs := by
  intro fuel
  induction fuel with
  | zero => intro cs; exact List.Sublist.refl cs
  | succ fuel ih =>
    intro cs
    cases cs with
    | nil => exact List.Sublist.refl []
    | cons c rest =>
      unfold stripDelimGo
      by_cases hs : startsWithD d (c :: rest) = true
      · rw [if_pos hs]
        cases hf : findCloseD d ((c :: rest).drop d.length) with
        | none => exact List.Sublist.cons₂ c (ih rest)
        | some p =>
          obtain ⟨cnt, rem⟩ := p
          have hdec := findCloseD_eq d _ cnt rem hf
          have hcr : c :: rest = d ++ (cnt ++ d ++ rem) := by
            have h0 := startsWithD_append d (c :: rest) hs
            rw [h0, hdec]
          rw [hcr]
          have h1 : List.Sublist (stripDelimGo d fuel rem) (d ++ rem) :=
            (ih rem).trans (List.sublist_append_right d rem)
          have h2 : List.Sublist (cnt ++ stripDelimGo d fuel rem)
              (cnt ++ (d ++ rem)) :=
            List.Sublist.append (List.Sublist.refl cnt) h1
          exact h2.trans
            (by simpa [List.append_assoc] using
              List.sublist_append_right d (cnt ++ (d ++ rem)))
      · rw [if_neg hs]
        exact List.Sublist.cons₂ c (ih rest)

lemma stripDelim_sublist (d : List Char) (cs : List Char) :
    List.Sublist (stripDelim d cs) cs :=
  stripDelimGo_sublist d cs.length cs

lemma stripDelimGo_single_id (d : Char) :
    ∀ fuel cs, cs.count d ≤ 1 → stripDelimGo [d] fuel cs = cs := by
  intro fuel
  induction fuel with
  | zero => intro cs _; rfl
  | succ fuel ih =>
    intro cs hc
    cases cs with
    | nil => rfl
    | cons c rest =>
      unfold stripDelimGo
      by_cases hs : startsWithD [d] (c :: rest) = true
      · rw [if_pos hs]
        have hcd : d = c := by simpa [startsWithD_single] using hs
        subst hcd
        have hrest : rest.count d = 0 := by
          rw [List.count_cons] at hc
          simp at hc
          omega
        have hnm : d ∉ rest := List.count_eq_zero.mp hrest
        rw [show (d :: rest).drop ([d].length) = rest by simp,
          findCloseD_none_of_not_mem d rest hnm]
        rw [ih rest (by omega)]
      · rw [if_neg hs]
        rw [ih rest ?_]
        rw [List.count_cons] at hc
        omega

lemma stripDelimGo_single_count (d : Char) :
    ∀ fuel cs, cs.length ≤ fuel → noLineTerm cs = true →
      (stripDelimGo [d] fuel cs).count d ≤ 1 := by
  intro fuel
  induction fuel with
  | zero =>
    intro cs hlen _
    have : cs = [] := List.eq_nil_of_length_eq_zero (by omega)
    subst this
    simp [stripDelimGo]
  | succ fuel ih =>
    intro cs hlen hnl
    cases cs with
    | nil => simp [stripDelimGo]
    | cons c rest =>
      obtain ⟨hltc, hnlr⟩ := (noLineTerm_cons c rest).mp hnl
      have hlr : rest.length ≤ fuel := by
        simp only [List.length_cons] at hlen; omega
      unfold stripDelimGo
      by_cases hs : startsWithD [d] (c :: rest) = true
      · rw [if_pos hs]
        have hcd : d = c := by simpa [startsWithD_single] using hs
        subst hcd
        rw [show (d :: rest).drop ([d].length) = rest by simp]
        cases hf : findCloseD [d] rest with
        | none =>
          have hnm : d ∉ rest := findCloseD_none_not_mem d rest hnlr hf
          have h1 : (stripDelimGo [d] fuel rest).count d ≤ rest.count d :=
            (stripDelimGo_sublist [d] fuel rest).count_le d
          have h2 : rest.count d = 0 := List.count_eq_zero.mpr hnm
          simp [List.count_cons]
          omega
        | some p =>
          obtain ⟨cnt, rem⟩ := p
          have hdec := findCloseD_eq [d] rest cnt rem hf
          have hrem_len : rem.length ≤ fuel := by
            have := congrArg List.length hdec
            simp [List.length_append] at this
            omega
          have hrem_nl : noLineTerm rem = true := by
            rw [hdec] at hnlr
            exact ((noLineTerm_append _ _).mp hnlr).2

          have hcnt : d ∉ cnt := findCloseD_single_cnt d rest cnt rem hf
          rw [List.count_append]
          have h0 : cnt.count d = 0 := List.count_eq_zero.mpr hcnt
          have h1 := ih rem hrem_len hrem_nl
          omega
      · rw [if_neg hs]
        have hcd : ¬ (c == d) = true := by
          intro hcd
          apply hs
          rw [startsWithD_single]
          have hcd' : c = d := by simpa using hcd
          simp [hcd']
        rw [List.count_cons]
        have h1 := ih rest hlr hnlr
        simp [hcd]
        omega

lemma stripDelim_single_count (d : Char) (cs : List Char)
    (hnl : noLineTerm cs = true) : (stripDelim [d] cs).count d ≤ 1 :=
  stripDelimGo_single_count d cs.length cs (le_refl _) hnl

lemma stripDelimGo_double_id (d : Char) :
    ∀ fuel cs, cs.count d ≤ 1 → stripDelimGo [d, d] fuel cs = cs := by
  intro fuel
  induction fuel with
  | zero => intro cs _; rfl
  | succ fuel ih =>
    intro cs hc
    cases cs with
    | nil => rfl
    | cons c rest =>
      unfold stripDelimGo
      have hs : ¬ startsWithD [d, d] (c :: rest) = true := by
        intro hs
        simp only [startsWithD, Bool.and_eq_true, beq_iff_eq] at hs
        obtain ⟨h1, h2⟩ := hs
        cases rest with
        | nil => simp [startsWithD] at h2
        | cons c2 r2 =>
          simp only [startsWithD, Bool.and_eq_true, beq_iff_eq] at h2
          obtain ⟨h2, _⟩ := h2
          rw [List.count_cons, List.count_cons] at hc
          simp [← h1, ← h2] at hc
      rw [if_neg hs]
      rw [ih rest ?_]
      rw [List.count_cons] at hc
      omega

/-! ## Sanitizer: heading, newline, whitespace and trim lemmas -/

lemma stripHeadingGo_sublist :
    ∀ fuel cs, List.Sublist (stripHeadingGo fuel cs) cs := by
  intro fuel
  induction fuel with
  | zero => intro cs; exact List.Sublist.refl cs
  | succ fuel ih =>
    intro cs
    cases cs with
    | nil => exact List.Sublist.refl []
    | cons c rest =>
      unfold stripHeadingGo
      by_cases hc : (c == '#') = true
      · rw [if_pos hc]
        by_cases hm : headingMatches (c :: rest) = true
        · rw [if_pos hm]
          exact (ih _).trans (List.drop_sublist _ _)
        · rw [if_neg hm]
          exact List.Sublist.cons₂ c (ih rest)
      · rw [if_neg hc]
        exact List.Sublist.cons₂ c (ih rest)

lemma stripHeading_sublist (cs : List Char) :
    List.Sublist (stripHeading cs) cs :=
  stripHeadingGo_sublist cs.length cs

lemma stripHeadingGo_id :
    ∀ fuel cs, '#' ∉ cs → stripHeadingGo fuel cs = cs := by
  intro fuel
  induction fuel with
  | zero => intro cs _; rfl
  | succ fuel ih =>
    intro cs h
    cases cs with
    | nil => rfl
    | cons c rest =>
      have hc : ¬ (c == '#') = true := by
        simp only [beq_iff_eq]
        intro he
        exact h (by simp [he])
      unfold stripHeadingGo
      rw [if_neg hc, ih rest (fun hm => h (by simp [hm]))]

lemma collapseNl_id : ∀ cs : List Char, '\n' ∉ cs → collapseNl cs = cs := by
  intro cs
  induction cs using collapseNl.induct with
  | case1 => intro _; rfl
  | case2 c hc =>
    intro h
    exact absurd (by simpa using hc : c = '\n') (fun he => h (by simp [he]))
  | case3 c hc => intro _; simp [collapseNl, hc]
  | case4 c c2 rest hc hc2 ih =>
    intro h
    exact absurd (by simpa using hc) (fun he => h (by simp [he]))
  | case5 c c2 rest hc hc2 ih =>
    intro h
    exact absurd (by simpa using hc) (fun he => h (by simp [he]))
  | case6 c c2 rest hc ih =>
    intro h
    simp only [collapseNl, if_neg hc]
    rw [ih (fun hm => h (List.mem_cons_of_mem c hm))]

lemma collapseNl_mem :
    ∀ cs : List Char, ∀ x ∈ collapseNl cs, x = '.' ∨ x = ' ' ∨ x ∈ cs := by
  intro cs
  induction cs using collapseNl.induct with
  | case1 => intro x hx; simp [collapseNl] at hx
  | case2 c hc =>
    intro x hx
    simp [collapseNl, hc] at hx
    rcases hx with hx | hx
    · exact Or.inl hx
    · exact Or.inr (Or.inl hx)
  | case3 c hc =>
    intro x hx
    simp [collapseNl, hc] at hx
    exact Or.inr (Or.inr (by simp [hx]))
  | case4 c c2 rest hc hc2 ih =>
    intro x hx
    simp only [collapseNl, if_pos hc, if_pos hc2] at hx
    rcases ih x hx with h | h | h
    · exact Or.inl h
    · exact Or.inr (Or.inl h)
    · exact Or.inr (Or.inr (List.mem_cons_of_mem c h))
  | case5 c c2 rest hc hc2 ih =>
    intro x hx
    simp only [collapseNl, if_pos hc, if_neg hc2] at hx
    rcases List.mem_cons.mp hx with h | hx
    · exact Or.inl h
    · rcases List.mem_cons.mp hx with h | hx
      · exact Or.inr (Or.inl h)
      · rcases ih x hx with h | h | h
        · exact Or.inl h
        · exact Or.inr (Or.inl h)
        · exact Or.inr (Or.inr (List.mem_cons_of_mem c h))
  | case6 c c2 rest hc ih =>
    intro x hx
    simp only [collapseNl, if_neg hc] at hx
    rcases List.mem_cons.mp hx with h | hx
    · exact Or.inr (Or.inr (by simp [h]))
    · rcases ih x hx with h | h | h
      · exact Or.inl h
      · exact Or.inr (Or.inl h)
      · exact Or.inr (Or.inr (List.mem_cons_of_mem c h))

lemma collapseWs_cons_not_ws (c : Char) (l : List Char)
    (h : isJsSpace c = false) : collapseWs (c :: l) = c :: collapseWs l := by
  cases l with
  | nil => simp [collapseWs, h]
  | cons c2 rest => simp [collapseWs, h]

lemma noAdjWs_tail (a : Char) (l : List Char)
    (h : noAdjWs (a :: l) = true) : noAdjWs l = true := by
  cases l with
  | nil => rfl
  | cons b r =>
    simp only [noAdjWs, Bool.and_eq_true] at h
    exact h.2

lemma noAdjWs_cons_cons_not_ws (a b : Char) (l : List Char)
    (hb : isJsSpace b = false) (h : noAdjWs (b :: l) = true) :
    noAdjWs (a :: b :: l) = true := by
  simp [noAdjWs, hb, h]

lemma collapseWs_ws_space :
    ∀ cs : List Char, ∀ x ∈ collapseWs cs, isJsSpace x = true → x = ' ' := by
  intro cs
  induction cs using collapseWs.induct with
  | case1 => intro x hx; simp [collapseWs] at hx
  | case2 c hc =>
    intro x hx _
    simp [collapseWs, hc] at hx
    exact hx
  | case3 c hc =>
    intro x hx hxs
    simp [collapseWs, hc] at hx
    subst hx
    exact absurd hxs hc
  | case4 c c2 rest hc hc2 ih =>
    intro x hx hxs
    simp only [collapseWs, if_pos hc, if_pos hc2] at hx
    exact ih x hx hxs
  | case5 c c2 rest hc hc2 ih =>
    intro x hx hxs
    simp only [collapseWs, if_pos hc, if_neg hc2] at hx
    rcases List.mem_cons.mp hx with h | hx
    · exact h
    · exact ih x hx hxs
  | case6 c c2 rest hc ih =>
    intro x hx hxs
    simp only [collapseWs, if_neg hc] at hx
    rcases List.mem_cons.mp hx with h | hx
    · subst h
      exact absurd hxs hc
    · exact ih x hx hxs

lemma collapseWs_mem :
    ∀ cs : List Char, ∀ x ∈ collapseWs cs, x = ' ' ∨ x ∈ cs := by
  intro cs
  induction cs using collapseWs.induct with
  | case1 => intro x hx; simp [collapseWs] at hx
  | case2 c hc =>
    intro x hx
    simp [collapseWs, hc] at hx
    exact Or.inl hx
  | case3 c hc =>
    intro x hx
    simp [collapseWs, hc] at hx
    exact Or.inr (by simp [hx])
  | case4 c c2 rest hc hc2 ih =>
    intro x hx
    simp only [collapseWs, if_pos hc, if_pos hc2] at hx
    rcases ih x hx with h | h
    · exact Or.inl h
    · exact Or.inr (List.mem_cons_of_mem c h)
  | case5 c c2 rest hc hc2 ih =>
    intro x hx
    simp only [collapseWs, if_pos hc, if_neg hc2] at hx
    rcases List.mem_cons.mp hx with h | hx
    · exact Or.inl h
    · rcases ih x hx with h | h
      · exact Or.inl h
      · exact Or.inr (List.mem_cons_of_mem c h)
  | case6 c c2 rest hc ih =>
    intro x hx
    simp only [collapseWs, if_neg hc] at hx
    rcases List.mem_cons.mp hx with h | hx
    · exact Or.inr (by simp [h])
    · rcases ih x hx with h | h
      · exact Or.inl h
      · exact Or.inr (List.mem_cons_of_mem c h)

lemma collapseWs_count (x : Char) (hx : isJsSpace x = false) :
    ∀ cs : List Char, (collapseWs cs).count x = cs.count x := by
  intro cs
  induction cs using collapseWs.induct with
  | case1 => rfl
  | case2 c hc =>
    have h1 : ¬ (' ' == x) = true := by
      simp only [beq_iff_eq]
      intro he
      rw [← he] at hx
      simp [isJsSpace] at hx
    have h2 : ¬ (c == x) = true := by
      simp only [beq_iff_eq]
      intro he
      rw [he, hx] at hc
      cases hc
    simp [collapseWs, hc, List.count_cons, h1, h2]
  | case3 c hc => simp [collapseWs, hc]
  | case4 c c2 rest hc hc2 ih =>
    have h2 : ¬ (c == x) = true := by
      simp only [beq_iff_eq]
      intro he
      rw [he, hx] at hc
      cases hc
    simp only [collapseWs, if_pos hc, if_pos hc2, ih, List.count_cons, h2]
    simp
  | case5 c c2 rest hc hc2 ih =>
    have h1 : ¬ (' ' == x) = true := by
      simp only [beq_iff_eq]
      intro he
      rw [← he] at hx
      simp [isJsSpace] at hx
    have h2 : ¬ (c == x) = true := by
      simp only [beq_iff_eq]
      intro he
      rw [he, hx] at hc
      cases hc
    simp only [collapseWs, if_pos hc, if_neg hc2, ih, List.count_cons, h1, h2]
  | case6 c c2 rest hc ih =>
    simp only [collapseWs, if_neg hc, ih, List.count_cons]

lemma collapseWs_noAdj : ∀ cs : List Char, noAdjWs (collapseWs cs) = true := by
  intro cs
  induction cs using collapseWs.induct with
  | case1 => rfl
  | case2 c hc => simp [collapseWs, hc, noAdjWs]
  | case3 c hc => simp [collapseWs, hc, noAdjWs]
  | case4 c c2 rest hc hc2 ih =>
    simpa only [collapseWs, if_pos hc, if_pos hc2] using ih
  | case5 c c2 rest hc hc2 ih =>
    simp only [collapseWs, if_pos hc, if_neg hc2]
    have hc2' : isJsSpace c2 = false := by simpa using hc2
    rw [collapseWs_cons_not_ws c2 rest hc2'] at ih ⊢
    exact noAdjWs_cons_cons_not_ws ' ' c2 _ hc2' ih
  | case6 c c2 rest hc ih =>
    simp only [collapseWs, if_neg hc]
    have hc' : isJsSpace c = false := by simpa using hc
    cases hcw : collapseWs (c2 :: rest) with
    | nil => rfl
    | cons y ys =>
      rw [hcw] at ih
      have hyc : isJsSpace y = false ∨ y = ' ' := by
        by_cases hws : isJsSpace y = true
        · exact Or.inr (collapseWs_ws_space (c2 :: rest) y (by rw [hcw]; simp)
            hws)
        · exact Or.inl (by simpa using hws)
      simp [noAdjWs, hc', ih]

lemma collapseWs_id :
    ∀ cs : List Char, (∀ x ∈ cs, isJsSpace x = true → x = ' ') →
      noAdjWs cs = true → collapseWs cs = cs := by
  intro cs
  induction cs using collapseWs.induct with
  | case1 => intro _ _; rfl
  | case2 c hc =>
    intro hsp _
    have : c = ' ' := hsp c (by simp) hc
    simp [collapseWs, hc, this]
  | case3 c hc => intro _ _; simp [collapseWs, hc]
  | case4 c c2 rest hc hc2 ih =>
    intro hsp hadj
    exfalso
    have := (by simpa only [noAdjWs, Bool.and_eq_true] using hadj :
      (!(isJsSpace c && isJsSpace c2)) = true ∧ _)
    rw [hc, hc2] at this
    simp at this
  | case5 c c2 rest hc hc2 ih =>
    intro hsp hadj
    have hcsp : c = ' ' := hsp c (by simp) hc
    simp only [collapseWs, if_pos hc, if_neg hc2]
    rw [ih (fun x hx hxs => hsp x (List.mem_cons_of_mem c hx) hxs)
      (noAdjWs_tail c _ hadj), hcsp]
  | case6 c c2 rest hc ih =>
    intro hsp hadj
    simp only [collapseWs, if_neg hc]
    rw [ih (fun x hx hxs => hsp x (List.mem_cons_of_mem c hx) hxs)
      (noAdjWs_tail c _ hadj)]

lemma dropTrailingWs_sublist :
    ∀ l : List Char, List.Sublist (dropTrailingWs l) l := by
  intro l
  induction l with
  | nil => exact List.Sublist.refl []
  | cons c rest ih =>
    unfold dropTrailingWs
    by_cases hcond : (isJsSpace c && (dropTrailingWs rest).isEmpty) = true
    · rw [if_pos hcond]
      exact List.nil_sublist _
    · rw [if_neg hcond]
      exact List.Sublist.cons₂ c ih

lemma dropTrailingWs_append :
    ∀ l : List Char, ∃ t, l = dropTrailingWs l ++ t := by
  intro l
  induction l with
  | nil => exact ⟨[], rfl⟩
  | cons c rest ih =>
    unfold dropTrailingWs
    by_cases hcond : (isJsSpace c && (dropTrailingWs rest).isEmpty) = true
    · rw [if_pos hcond]
      exact ⟨c :: rest, rfl⟩
    · rw [if_neg hcond]
      obtain ⟨t, ht⟩ := ih
      exact ⟨t, by rw [List.cons_append, ← ht]⟩

lemma dropTrailingWs_noTrail :
    ∀ l : List Char, noTrailWs (dropTrailingWs l) = true := by
  intro l
  induction l with
  | nil => rfl
  | cons c rest ih =>
    unfold dropTrailingWs
    by_cases hcond : (isJsSpace c && (dropTrailingWs rest).isEmpty) = true
    · rw [if_pos hcond]; rfl
    · rw [if_neg hcond]
      cases hr : dropTrailingWs rest with
      | nil =>
        have hcf : isJsSpace c = false := by
          rw [hr] at hcond
          simpa using hcond
        simp [noTrailWs, hcf]
      | cons y ys =>
        rw [hr] at ih
        simpa [noTrailWs, List.getLast?_cons_cons] using ih

lemma dropTrailingWs_id :
    ∀ l : List Char, noTrailWs l = true → dropTrailingWs l = l := by
  intro l
  induction l with
  | nil => intro _; rfl
  | cons c rest ih =>
    intro h
    cases rest with
    | nil =>
      have hcf : isJsSpace c = false := by
        simpa [noTrailWs] using h
      simp [dropTrailingWs, hcf]
    | cons c2 r2 =>
      have h2 : noTrailWs (c2 :: r2) = true := by
        simpa [noTrailWs, List.getLast?_cons_cons] using h
      unfold dropTrailingWs
      rw [ih h2]
      simp

lemma dropTrailingWs_noLead :
    ∀ l : List Char, noLeadWs l = true → noLeadWs (dropTrailingWs l) = true := by
  intro l
  cases l with
  | nil => intro _; rfl
  | cons c rest =>
    intro h
    unfold dropTrailingWs
    by_cases hcond : (isJsSpace c && (dropTrailingWs rest).isEmpty) = true
    · rw [if_pos hcond]; rfl
    · rw [if_neg hcond]
      simpa [noLeadWs] using h

lemma dropWhileWs_sublist (p : Char → Bool) :
    ∀ l : List Char, List.Sublist (l.dropWhile p) l := by
  intro l
  induction l with
  | nil => exact List.Sublist.refl []
  | cons c rest ih =>
    rw [List.dropWhile_cons]
    by_cases hc : p c = true
    · rw [if_pos hc]
      exact ih.cons c
    · rw [if_neg hc]

lemma dropWhileWs_noLead :
    ∀ l : List Char, noLeadWs (l.dropWhile isJsSpace) = true := by
  intro l
  induction l with
  | nil => rfl
  | cons c rest ih =>
    rw [List.dropWhile_cons]
    by_cases hc : isJsSpace c = true
    · rw [if_pos hc]; exact ih
    · rw [if_neg hc]
      simpa [noLeadWs] using hc

lemma dropWhileWs_id (l : List Char) (h : noLeadWs l = true) :
    l.dropWhile isJsSpace = l := by
  cases l with
  | nil => rfl
  | cons c rest =>
    rw [List.dropWhile_cons, if_neg]
    simpa [noLeadWs] using h

lemma noAdjWs_append_right :
    ∀ l1 l2 : List Char, noAdjWs (l1 ++ l2) = true → noAdjWs l2 = true := by
  intro l1
  induction l1 with
  | nil => intro l2 h; exact h
  | cons a l1' ih =>
    intro l2 h
    exact ih l2 (noAdjWs_tail a _ (by simpa using h))

lemma noAdjWs_append_left :
    ∀ l1 l2 : List Char, noAdjWs (l1 ++ l2) = true → noAdjWs l1 = true := by
  intro l1
  induction l1 with
  | nil => intro _ _; rfl
  | cons a l1' ih =>
    intro l2 h
    cases l1' with
    | nil => rfl
    | cons b r =>
      have h' : noAdjWs ((b :: r) ++ l2) = true :=
        noAdjWs_tail a _ (by simpa using h)
      have hab : (!(isJsSpace a && isJsSpace b)) = true := by
        simp only [List.cons_append, noAdjWs, Bool.and_eq_true] at h
        exact h.1
      have := ih l2 h'
      simp only [noAdjWs, Bool.and_eq_true]
      exact ⟨hab, this⟩

lemma trimChars_sublist (l : List Char) :
    List.Sublist (trimChars l) l :=
  (dropTrailingWs_sublist _).trans (dropWhileWs_sublist isJsSpace l)

lemma trimChars_noLead (l : List Char) : noLeadWs (trimChars l) = true :=
  dropTrailingWs_noLead _ (dropWhileWs_noLead l)

lemma trimChars_noTrail (l : List Char) : noTrailWs (trimChars l) = true :=
  dropTrailingWs_noTrail _

lemma trimChars_noAdj (l : List Char) (h : noAdjWs l = true) :
    noAdjWs (trimChars l) = true := by
  have h1 : noAdjWs (l.dropWhile isJsSpace) = true := by
    apply noAdjWs_append_right (l.takeWhile isJsSpace)
    rw [List.takeWhile_append_dropWhile]
    exact h
  obtain ⟨t, ht⟩ := dropTrailingWs_append (l.dropWhile isJsSpace)
  unfold trimChars
  apply noAdjWs_append_left _ t
  rw [← ht]
  exact h1

lemma trimChars_id (l : List Char) (h1 : noLeadWs l = true)
    (h2 : noTrailWs l = true) : trimChars l = l := by
  unfold trimChars
  rw [dropWhileWs_id l h1, dropTrailingWs_id l h2]

/-! ## Sanitizer: whole-pipeline lemmas -/

lemma stripHeading_id (l : List Char) (h : '#' ∉ l) : stripHeading l = l :=
  stripHeadingGo_id l.length l h

lemma emojiFiltered_sublist (cs : List Char) :
    List.Sublist (emojiFiltered cs) cs := by
  unfold emojiFiltered removeRange
  exact (List.filter_sublist _).trans ((List.filter_sublist _).trans
    ((List.filter_sublist _).trans ((List.filter_sublist _).trans
      ((List.filter_sublist _).trans ((List.filter_sublist _).trans
        (List.filter_sublist _))))))

lemma isEmojiChar_false_components (x : Char) (h : isEmojiChar x = false) :
    (decide (0x1F600 ≤ x.toNat) && decide (x.toNat ≤ 0x1F64F)) = false ∧
    (decide (0x1F300 ≤ x.toNat) && decide (x.toNat ≤ 0x1F5FF)) = false ∧
    (decide (0x1F680 ≤ x.toNat) && decide (x.toNat ≤ 0x1F6FF)) = false ∧
    (decide (0x2600 ≤ x.toNat) && decide (x.toNat ≤ 0x26FF)) = false ∧
    (decide (0x2700 ≤ x.toNat) && decide (x.toNat ≤ 0x27BF)) = false ∧
    (decide (0x1F900 ≤ x.toNat) && decide (x.toNat ≤ 0x1F9FF)) = false ∧
    (decide (0x1FA00 ≤ x.toNat) && decide (x.toNat ≤ 0x1FA6F)) = false := by
  unfold isEmojiChar at h
  simp only [Bool.or_eq_false_iff] at h
  exact ⟨h.1.1.1.1.1.1, h.1.1.1.1.1.2, h.1.1.1.1.2, h.1.1.1.2, h.1.1.2,
    h.1.2, h.2⟩

lemma emojiFiltered_no_emoji (cs : List Char) :
    ∀ x ∈ emojiFiltered cs, isEmojiChar x = false := by
  intro x hx
  unfold emojiFiltered removeRange at hx
  simp only [List.mem_filter, Bool.and_eq_true, Bool.not_eq_true'] at hx
  obtain ⟨⟨⟨⟨⟨⟨⟨_, h1⟩, h2⟩, h3⟩, h4⟩, h5⟩, h6⟩, h7⟩ := hx
  unfold isEmojiChar
  simp only [Bool.or_eq_false_iff]
  exact ⟨⟨⟨⟨⟨⟨h1, h2⟩, h3⟩, h4⟩, h5⟩, h6⟩, h7⟩

lemma emojiFiltered_id (l : List Char)
    (h : ∀ x ∈ l, isEmojiChar x = false) : emojiFiltered l = l := by
  have f1 : l.filter
      (fun c => !(decide (0x1F600 ≤ c.toNat) && decide (c.toNat ≤ 0x1F64F))) = l :=
    List.filter_eq_self.mpr (fun a ha => by
      rw [(isEmojiChar_false_components a (h a ha)).1]; rfl)
  have f2 : l.filter
      (fun c => !(decide (0x1F300 ≤ c.toNat) && decide (c.toNat ≤ 0x1F5FF))) = l :=
    List.filter_eq_self.mpr (fun a ha => by
      rw [(isEmojiChar_false_components a (h a ha)).2.1]; rfl)
  have f3 : l.filter
      (fun c => !(decide (0x1F680 ≤ c.toNat) && decide (c.toNat ≤ 0x1F6FF))) = l :=
    List.filter_eq_self.mpr (fun a ha => by
      rw [(isEmojiChar_false_components a (h a ha)).2.2.1]; rfl)
  have f4 : l.filter
      (fun c => !(decide (0x2600 ≤ c.toNat) && decide (c.toNat ≤ 0x26FF))) = l :=
    List.filter_eq_self.mpr (fun a ha => by
      rw [(isEmojiChar_false_components a (h a ha)).2.2.2.1]; rfl)
  have f5 : l.filter
      (fun c => !(decide (0x2700 ≤ c.toNat) && decide (c.toNat ≤ 0x27BF))) = l :=
    List.filter_eq_self.mpr (fun a ha => by
      rw [(isEmojiChar_false_components a (h a ha)).2.2.2.2.1]; rfl)
  have f6 : l.filter
      (fun c => !(decide (0x1F900 ≤ c.toNat) && decide (c.toNat ≤ 0x1F9FF))) = l :=
    List.filter_eq_self.mpr (fun a ha => by
      rw [(isEmojiChar_false_components a (h a ha)).2.2.2.2.2.1]; rfl)
  have f7 : l.filter
      (fun c => !(decide (0x1FA00 ≤ c.toNat) && decide (c.toNat ≤ 0x1FA6F))) = l :=
    List.filter_eq_self.mpr (fun a ha => by
      rw [(isEmojiChar_false_components a (h a ha)).2.2.2.2.2.2]; rfl)
  unfold emojiFiltered removeRange
  rw [f1, f2, f3, f4, f5, f6, f7]

lemma sanitizeChars_mem (cs : List Char) :
    ∀ x ∈ sanitizeChars cs, x = ' ' ∨ x = '.' ∨ x ∈ emojiFiltered cs := by
  intro x hx
  unfold sanitizeChars at hx
  have hx1 := (trimChars_sublist _).subset hx
  rcases collapseWs_mem _ x hx1 with h | hx2
  · exact Or.inl h
  rcases collapseNl_mem _ x hx2 with h | h | hx3
  · exact Or.inr (Or.inl h)
  · exact Or.inl h
  have hx4 := (stripHeading_sublist _).subset hx3
  have hx5 := (stripDelim_sublist _ _).subset hx4
  have hx6 := (stripDelim_sublist _ _).subset hx5
  have hx7 := (stripDelim_sublist _ _).subset hx6
  exact Or.inr (Or.inr hx7)

lemma sanitizeChars_no_emoji (cs : List Char) :
    ∀ x ∈ sanitizeChars cs, isEmojiChar x = false := by
  intro x hx
  rcases sanitizeChars_mem cs x hx with h | h | h
  · subst h; decide
  · subst h; decide
  · exact emojiFiltered_no_emoji cs x h

lemma sanitizeChars_ws_space (cs : List Char) :
    ∀ x ∈ sanitizeChars cs, isJsSpace x = true → x = ' ' := by
  intro x hx hxs
  unfold sanitizeChars at hx
  exact collapseWs_ws_space _ x ((trimChars_sublist _).subset hx) hxs

lemma sanitizeChars_noAdj (cs : List Char) :
    noAdjWs (sanitizeChars cs) = true :=
  trimChars_noAdj _ (collapseWs_noAdj _)

lemma sanitizeChars_noLead (cs : List Char) :
    noLeadWs (sanitizeChars cs) = true :=
  trimChars_noLead _

lemma sanitizeChars_noTrail (cs : List Char) :
    noTrailWs (sanitizeChars cs) = true :=
  trimChars_noTrail _

lemma sanitizeChars_no_newline (cs : List Char) :
    (sanitizeChars cs).count '\n' = 0 := by
  rw [List.count_eq_zero]
  intro hm
  have := sanitizeChars_ws_space cs '\n' hm (by decide)
  exact absurd this (by decide)

lemma noLineTerm_not_newline (l : List Char) (h : noLineTerm l = true) :
    '\n' ∉ l := by
  intro hm
  rw [noLineTerm, List.all_eq_true] at h
  have := h _ hm
  simp [isLineTerm] at this

/-- Under the no-line-terminator / no-`#` assumptions, the heading and
newline passes are identities, so the pipeline is trim∘collapse∘strips. -/
lemma sanitizeChars_eq (cs : List Char) (hnl : noLineTerm cs = true)
    (hh : cs.count '#' = 0) :
    sanitizeChars cs =
      trimChars (collapseWs (stripDelim ['`'] (stripDelim ['*']
        (stripDelim ['*', '*'] (emojiFiltered cs))))) := by
  have ht_sub : List.Sublist
      (stripDelim ['`'] (stripDelim ['*']
        (stripDelim ['*', '*'] (emojiFiltered cs)))) cs :=
    (stripDelim_sublist _ _).trans ((stripDelim_sublist _ _).trans
      ((stripDelim_sublist _ _).trans (emojiFiltered_sublist cs)))
  have ht_nl : noLineTerm (stripDelim ['`'] (stripDelim ['*']
      (stripDelim ['*', '*'] (emojiFiltered cs)))) = true :=
    noLineTerm_sublist _ _ ht_sub hnl
  have ht_hash : '#' ∉ stripDelim ['`'] (stripDelim ['*']
      (stripDelim ['*', '*'] (emojiFiltered cs))) := by
    rw [← List.count_eq_zero]
    have := ht_sub.count_le '#'
    omega
  unfold sanitizeChars
  rw [stripHeading_id _ ht_hash, collapseNl_id _ (noLineTerm_not_newline _ ht_nl)]

/-- Core of the amended idempotence claim, at the character-list level. -/
lemma sanitizeChars_idem (cs : List Char) (hnl : noLineTerm cs = true)
    (hh : cs.count '#' = 0) :
    sanitizeChars (sanitizeChars cs) = sanitizeChars cs := by
  have hpipe := sanitizeChars_eq cs hnl hh
  -- facts about the intermediate stages
  have hv_nl : noLineTerm (stripDelim ['*', '*'] (emojiFiltered cs)) = true :=
    noLineTerm_sublist _ _
      ((stripDelim_sublist _ _).trans (emojiFiltered_sublist cs)) hnl
  have hw_nl : noLineTerm (stripDelim ['*']
      (stripDelim ['*', '*'] (emojiFiltered cs))) = true :=
    noLineTerm_sublist _ _ (stripDelim_sublist _ _) hv_nl
  have hw_star : (stripDelim ['*']
      (stripDelim ['*', '*'] (emojiFiltered cs))).count '*' ≤ 1 :=
    stripDelim_single_count '*' _ hv_nl
  have ht_star : (stripDelim ['`'] (stripDelim ['*']
      (stripDelim ['*', '*'] (emojiFiltered cs)))).count '*' ≤ 1 :=
    le_trans ((stripDelim_sublist _ _).count_le '*') hw_star
  have ht_tick : (stripDelim ['`'] (stripDelim ['*']
      (stripDelim ['*', '*'] (emojiFiltered cs)))).count '`' ≤ 1 :=
    stripDelim_single_count '`' _ hw_nl
  have ht_sub : List.Sublist
      (stripDelim ['`'] (stripDelim ['*']
        (stripDelim ['*', '*'] (emojiFiltered cs)))) cs :=
    (stripDelim_sublist _ _).trans ((stripDelim_sublist _ _).trans
      ((stripDelim_sublist _ _).trans (emojiFiltered_sublist cs)))
  -- counts in the final output
  have ho_star : (sanitizeChars cs).count '*' ≤ 1 := by
    rw [hpipe]
    refine le_trans ((trimChars_sublist _).count_le '*') ?_
    rw [collapseWs_count '*' (by decide)]
    exact ht_star
  have ho_tick : (sanitizeChars cs).count '`' ≤ 1 := by
    rw [hpipe]
    refine le_trans ((trimChars_sublist _).count_le '`') ?_
    rw [collapseWs_count '`' (by decide)]
    exact ht_tick
  have ho_hash : '#' ∉ sanitizeChars cs := by
    rw [← List.count_eq_zero]
    have h1 : (sanitizeChars cs).count '#' ≤ cs.count '#' := by
      rw [hpipe]
      refine le_trans ((trimChars_sublist _).count_le '#') ?_
      rw [collapseWs_count '#' (by decide)]
      exact ht_sub.count_le '#'
    omega
  -- the second pass is the identity, stage by stage
  have e1 : emojiFiltered (sanitizeChars cs) = sanitizeChars cs :=
    emojiFiltered_id _ (sanitizeChars_no_emoji cs)
  have e2 : stripDelim ['*', '*'] (sanitizeChars cs) = sanitizeChars cs :=
    stripDelimGo_double_id '*' _ _ ho_star
  have e3 : stripDelim ['*'] (sanitizeChars cs) = sanitizeChars cs :=
    stripDelimGo_single_id '*' _ _ ho_star
  have e4 : stripDelim ['`'] (sanitizeChars cs) = sanitizeChars cs :=
    stripDelimGo_single_id '`' _ _ ho_tick
  have e5 : stripHeading (sanitizeChars cs) = sanitizeChars cs :=
    stripHeading_id _ ho_hash
  have e6 : collapseNl (sanitizeChars cs) = sanitizeChars cs :=
    collapseNl_id _ (List.count_eq_zero.mp (sanitizeChars_no_newline cs))
  have e7 : collapseWs (sanitizeChars cs) = sanitizeChars cs :=
    collapseWs_id _ (sanitizeChars_ws_space cs) (sanitizeChars_noAdj cs)
  have e8 : trimChars (sanitizeChars cs) = sanitizeChars cs :=
    trimChars_id _ (sanitizeChars_noLead cs) (sanitizeChars_noTrail cs)
  conv_lhs => rw [sanitizeChars]
  rw [e1, e2, e3, e4, e5, e6, e7, e8]

/-! ## C4 — idempotence of sanitize -/

/-- C4 as stated is false: two decidable counterexamples.  Unpaired `*`
markers separated by a newline are out of reach of one pass (`.` does not
cross line terminators) but get paired after newlines collapse to `". "`,
and a run of seven `#` before two spaces leaves a fresh `"# "` heading for
the second pass. -/
theorem sanitize_not_idempotent :
    decide (sanitizeText (sanitizeText "*a\n*b") = sanitizeText "*a\n*b")
        = false ∧
      decide (sanitizeText (sanitizeText "#######  a") =
        sanitizeText "#######  a") = false := by
  decide

/-- **C4 (amended).** `sanitize` is idempotent on every input that contains
no line terminator and no `#`; in general a second application can differ
(newline-separated `*` markers, or runs of seven or more `#` before
whitespace). -/
lemma sanitizeText_data (s : String) :
    (sanitizeText s).data = sanitizeChars s.data := by
  cases s with
  | mk l => rw [sanitizeText]

theorem sanitize_idempotent_on (s : String)
    (h1 : noLineTerm s.data = true) (h2 : s.data.count '#' = 0) :
    sanitizeText (sanitizeText s) = sanitizeText s := by
  have h : sanitizeChars (sanitizeText s).data = sanitizeChars s.data := by
    rw [sanitizeText_data]
    exact sanitizeChars_idem s.data h1 h2
  show String.mk (sanitizeChars (sanitizeText s).data) = sanitizeText s
  rw [h, sanitizeText]

theorem sanitize_idempotent_on_witness :
    noLineTerm ("hello **world**" : String).data = true ∧
      ("hello **world**" : String).data.count '#' = 0 ∧
      sanitizeText (sanitizeText "hello **world**") =
        sanitizeText "hello **world**" :=
  ⟨by decide, by decide, sanitize_idempotent_on "hello **world**"
    (by decide) (by decide)⟩

/-! ## Sanitizer: lemmas for the markdown-stripping and sentence-break
shape laws -/

lemma isLineTerm_isJsSpace (c : Char) (h : isLineTerm c = true) :
    isJsSpace c = true := by
  unfold isLineTerm at h
  simp only [Bool.or_eq_true] at h
  rcases h with ((h | h) | h) | h
  · rw [eq_of_beq h]; decide
  · rw [eq_of_beq h]; decide
  · have hn := of_decide_eq_true h
    unfold isJsSpace
    simp [hn]
  · have hn := of_decide_eq_true h
    unfold isJsSpace
    simp [hn]

lemma noLineTerm_of_no_ws (l : List Char)
    (h : ∀ x ∈ l, isJsSpace x = false) : noLineTerm l = true := by
  rw [noLineTerm, List.all_eq_true]
  intro c hc
  by_cases hl : isLineTerm c = true
  · exact absurd (isLineTerm_isJsSpace c hl) (by simp [h c hc])
  · simp [hl]

lemma plain_not_mem (d : Char) (hd : plainChar d = false) (l : List Char)
    (h : l.all plainChar = true) : d ∉ l := by
  intro hm
  have := List.all_eq_true.mp h d hm
  rw [this] at hd
  cases hd

lemma plain_no_ws (l : List Char) (h : l.all plainChar = true) :
    ∀ x ∈ l, isJsSpace x = false := by
  intro x hx
  have := List.all_eq_true.mp h x hx
  unfold plainChar at this
  simp only [Bool.and_eq_true, Bool.not_eq_true'] at this
  exact this.1.1.1.1

lemma plain_no_emoji (l : List Char) (h : l.all plainChar = true) :
    ∀ x ∈ l, isEmojiChar x = false := by
  intro x hx
  have := List.all_eq_true.mp h x hx
  unfold plainChar at this
  simp only [Bool.and_eq_true, Bool.not_eq_true'] at this
  exact this.1.1.1.2

/-! ### `\n+` → `". "` at the collapseNl level -/

lemma collapseNl_cons_not_nl (c : Char) (l : List Char)
    (h : (c == '\n') = false) : collapseNl (c :: l) = c :: collapseNl l := by
  cases l with
  | nil => simp [collapseNl, h]
  | cons c2 rest => simp [collapseNl, h]

lemma collapseNl_append (a : List Char) (l : List Char) (h : '\n' ∉ a) :
    collapseNl (a ++ l) = a ++ collapseNl l := by
  induction a with
  | nil => rfl
  | cons x a' ih =>
    have hx : (x == '\n') = false := by
      simp only [beq_eq_false_iff_ne, ne_eq]
      intro he
      exact h (by simp [he])
    rw [List.cons_append, collapseNl_cons_not_nl x _ hx,
      ih (fun hm => h (by simp [hm]))]
    rfl

lemma collapseNl_run : ∀ (n : Nat) (b : List Char), '\n' ∉ b →
    collapseNl (List.replicate (n + 1) '\n' ++ b) = '.' :: ' ' :: b := by
  intro n
  induction n with
  | zero =>
    intro b hb
    cases b with
    | nil => rfl
    | cons y t =>
      have hy : (y == '\n') = false := by
        simp only [beq_eq_false_iff_ne, ne_eq]
        intro he
        exact hb (by simp [he])
      show collapseNl ('\n' :: y :: t) = '.' :: ' ' :: y :: t
      rw [show collapseNl ('\n' :: y :: t)
            = '.' :: ' ' :: collapseNl (y :: t) by simp [collapseNl, hy],
        collapseNl_id (y :: t) hb]
  | succ n ih =>
    intro b hb
    have : List.replicate (n + 2) '\n' ++ b =
        '\n' :: '\n' :: (List.replicate n '\n' ++ b) := by
      simp [List.replicate_succ]
    rw [this]
    have h2 : '\n' :: (List.replicate n '\n' ++ b) =
        List.replicate (n + 1) '\n' ++ b := by
      simp [List.replicate_succ]
    simp only [collapseNl, beq_self_eq_true, if_true]
    rw [h2, ih b hb]

/-! ### identity of the doubled-delimiter pass without adjacent pairs -/

lemma noAdjChar_tail (d a : Char) (l : List Char)
    (h : noAdjChar d (a :: l) = true) : noAdjChar d l = true := by
  cases l with
  | nil => rfl
  | cons b r =>
    simp only [noAdjChar, Bool.and_eq_true] at h
    exact h.2

lemma noAdjChar_cons_not_d (d x : Char) (t : List Char)
    (hx : (x == d) = false) (h : noAdjChar d t = true) :
    noAdjChar d (x :: t) = true := by
  cases t with
  | nil => rfl
  | cons y ys => simp [noAdjChar, hx, h]

lemma noAdjChar_of_not_mem (d : Char) :
    ∀ l : List Char, d ∉ l → noAdjChar d l = true := by
  intro l
  induction l with
  | nil => intro _; rfl
  | cons x t ih =>
    intro h
    have hx : (x == d) = false := by
      simp only [beq_eq_false_iff_ne, ne_eq]
      intro he
      exact h (by simp [he])
    exact noAdjChar_cons_not_d d x t hx (ih (fun hm => h (by simp [hm])))

lemma noAdjChar_midtail (d : Char) :
    ∀ b c : List Char, d ∉ b → d ∉ c →
      noAdjChar d (b ++ d :: c) = true := by
  intro b
  induction b with
  | nil =>
    intro c _ hc
    cases c with
    | nil => rfl
    | cons z c' =>
      have hz : (z == d) = false := by
        simp only [beq_eq_false_iff_ne, ne_eq]
        intro he
        exact hc (by simp [he])
      have : noAdjChar d (z :: c') = true :=
        noAdjChar_of_not_mem d _ hc
      simp [noAdjChar, hz, this]
  | cons y b' ih =>
    intro c hb hc
    have hy : (y == d) = false := by
      simp only [beq_eq_false_iff_ne, ne_eq]
      intro he
      exact hb (by simp [he])
    exact noAdjChar_cons_not_d d y _ hy (ih c (fun hm => hb (by simp [hm])) hc)

lemma noAdjChar_shape (d : Char) :
    ∀ a b c : List Char, d ∉ a → d ∉ b → d ∉ c → b ≠ [] →
      noAdjChar d (a ++ d :: b ++ d :: c) = true := by
  intro a
  induction a with
  | nil =>
    intro b c _ hb hc hbne
    cases b with
    | nil => exact absurd rfl hbne
    | cons y b' =>
      have hy : (y == d) = false := by
        simp only [beq_eq_false_iff_ne, ne_eq]
        intro he
        exact hb (by simp [he])
      have htail : noAdjChar d (y :: b' ++ d :: c) = true :=
        noAdjChar_midtail d (y :: b') c hb hc
      simp only [List.nil_append, List.cons_append, noAdjChar, hy,
        Bool.and_false, Bool.not_false, Bool.true_and]
      exact htail
  | cons x a' ih =>
    intro b c ha hb hc hbne
    have hx : (x == d) = false := by
      simp only [beq_eq_false_iff_ne, ne_eq]
      intro he
      exact ha (by simp [he])
    exact noAdjChar_cons_not_d d x _ hx
      (ih b c (fun hm => ha (by simp [hm])) hb hc hbne)

lemma stripDelimGo_double_id_adj (d : Char) :
    ∀ fuel cs, noAdjChar d cs = true → stripDelimGo [d, d] fuel cs = cs := by
  intro fuel
  induction fuel with
  | zero => intro cs _; rfl
  | succ fuel ih =>
    intro cs hadj
    cases cs with
    | nil => rfl
    | cons c rest =>
      unfold stripDelimGo
      have hs : ¬ startsWithD [d, d] (c :: rest) = true := by
        intro hs
        simp only [startsWithD, Bool.and_eq_true, beq_iff_eq] at hs
        obtain ⟨h1, h2⟩ := hs
        cases rest with
        | nil => simp [startsWithD] at h2
        | cons c2 r2 =>
          simp only [startsWithD, Bool.and_eq_true, beq_iff_eq] at h2
          obtain ⟨h2, _⟩ := h2
          simp only [noAdjChar, Bool.and_eq_true] at hadj
          rw [← h1, ← h2] at hadj
          simp at hadj
      rw [if_neg hs, ih rest (noAdjChar_tail d c rest hadj)]

/-! ### the single-delimiter pass strips exactly one matched pair -/

lemma findCloseD_append (d : Char) :
    ∀ b c : List Char, d ∉ b → noLineTerm b = true →
      findCloseD [d] (b ++ d :: c) = some (b, c) := by
  intro b
  induction b with
  | nil =>
    intro c _ _
    rw [List.nil_append]
    unfold findCloseD
    rw [if_pos (by rw [startsWithD_single]; simp)]
    simp
  | cons x b' ih =>
    intro c hb hnl
    have hx : ¬ x = d := by
      intro he
      exact hb (by simp [he])
    obtain ⟨hlt, hnl'⟩ := (noLineTerm_cons x b').mp hnl
    have hsw : ¬ startsWithD [d] (x :: (b' ++ d :: c)) = true := by
      rw [startsWithD_single]
      simp only [beq_iff_eq]
      intro he
      exact hx he.symm
    rw [List.cons_append]
    unfold findCloseD
    rw [if_neg hsw, if_neg (by simp [hlt]),
      ih c (fun hm => hb (by simp [hm])) hnl']
    rfl

lemma stripDelimGo_cons_eq (d : List Char) (fuel : Nat) (c : Char)
    (rest : List Char) :
    stripDelimGo d (fuel + 1) (c :: rest) =
      if startsWithD d (c :: rest) = true then
        match findCloseD d ((c :: rest).drop d.length) with
        | some (cnt, rem) => cnt ++ stripDelimGo d fuel rem
        | none => c :: stripDelimGo d fuel rest
      else c :: stripDelimGo d fuel rest := rfl

lemma stripDelimGo_strip_pair (d : Char) :
    ∀ fuel (a b c : List Char), (a ++ d :: b ++ d :: c).length ≤ fuel →
      d ∉ a → d ∉ b → noLineTerm b = true → d ∉ c →
      stripDelimGo [d] fuel (a ++ d :: b ++ d :: c) = a ++ b ++ c := by
  intro fuel
  induction fuel with
  | zero =>
    intro a b c hlen _ _ _ _
    exfalso
    simp [List.length_append] at hlen
  | succ fuel ih =>
    intro a b c hlen ha hb hnl hc
    cases a with
    | nil =>
      rw [List.nil_append, List.nil_append]
      simp only [List.cons_append]
      rw [stripDelimGo_cons_eq]
      rw [if_pos (by rw [startsWithD_single]; simp)]
      rw [show List.drop ([d].length) (d :: (b ++ d :: c)) = b ++ d :: c
            from rfl]
      rw [findCloseD_append d b c hb hnl]
      show b ++ stripDelimGo [d] fuel c = b ++ c
      rw [stripDelimGo_single_id d fuel c
        (by rw [List.count_eq_zero.mpr hc]; omega)]
    | cons x a' =>
      have hx : ¬ x = d := by
        intro he
        exact ha (by simp [he])
      have hlen' : (a' ++ d :: b ++ d :: c).length ≤ fuel := by
        simp only [List.cons_append, List.length_cons, List.length_append]
          at hlen ⊢
        omega
      have ih' := ih a' b c hlen' (fun hm => ha (by simp [hm])) hb hnl hc
      simp only [List.cons_append] at ih' ⊢
      rw [stripDelimGo_cons_eq]
      rw [if_neg (by rw [startsWithD_single]
                     simp only [beq_iff_eq]
                     intro he
                     exact hx he.symm)]
      rw [ih']

lemma stripDelim_strip_pair (d : Char) (a b c : List Char)
    (ha : d ∉ a) (hb : d ∉ b) (hnl : noLineTerm b = true) (hc : d ∉ c) :
    stripDelim [d] (a ++ d :: b ++ d :: c) = a ++ b ++ c :=
  stripDelimGo_strip_pair d _ a b c (le_refl _) ha hb hnl hc

/-! ### whitespace-free tails are fixed by the whitespace stages -/

lemma noAdjWs_cons_fst_not_ws (x : Char) (t : List Char)
    (hx : isJsSpace x = false) (h : noAdjWs t = true) :
    noAdjWs (x :: t) = true := by
  cases t with
  | nil => rfl
  | cons y ys => simp [noAdjWs, hx, h]

lemma noAdjWs_of_no_ws (l : List Char)
    (h : ∀ x ∈ l, isJsSpace x = false) : noAdjWs l = true := by
  induction l with
  | nil => rfl
  | cons x t ih =>
    exact noAdjWs_cons_fst_not_ws x t (h x (by simp))
      (ih (fun y hy => h y (by simp [hy])))

lemma noAdjWs_prepend_no_ws :
    ∀ a t : List Char, (∀ x ∈ a, isJsSpace x = false) → noAdjWs t = true →
      noAdjWs (a ++ t) = true := by
  intro a
  induction a with
  | nil => intro t _ h; exact h
  | cons x a' ih =>
    intro t ha h
    exact noAdjWs_cons_fst_not_ws x (a' ++ t) (ha x (by simp))
      (ih t (fun y hy => ha y (by simp [hy])) h)

lemma noLeadWs_of_no_ws (l : List Char)
    (h : ∀ x ∈ l, isJsSpace x = false) : noLeadWs l = true := by
  cases l with
  | nil => rfl
  | cons x t => simp [noLeadWs, h x (by simp)]

lemma noTrailWs_of_no_ws :
    ∀ l : List Char, (∀ x ∈ l, isJsSpace x = false) →
      noTrailWs l = true := by
  intro l
  induction l with
  | nil => intro _; rfl
  | cons x t ih =>
    intro h
    cases t with
    | nil => simp [noTrailWs, h x (by simp)]
    | cons y ys =>
      have := ih (fun z hz => h z (by simp [hz]))
      simpa [noTrailWs, List.getLast?_cons_cons] using this

lemma noTrailWs_append :
    ∀ l1 l2 : List Char, l2 ≠ [] → noTrailWs l2 = true →
      noTrailWs (l1 ++ l2) = true := by
  intro l1
  induction l1 with
  | nil => intro l2 _ h; exact h
  | cons x l1' ih =>
    intro l2 hne h
    have h' := ih l2 hne h
    cases ht : l1' ++ l2 with
    | nil =>
      rcases List.append_eq_nil.mp ht with ⟨_, h2⟩
      exact absurd h2 hne
    | cons y ys =>
      rw [ht] at h'
      rw [List.cons_append, ht]
      simpa [noTrailWs, List.getLast?_cons_cons] using h'

/-- Heading, newline, whitespace-collapse and trim all fix a list without
whitespace, `#` or `\n`. -/
lemma sanitizeTail_id (l : List Char)
    (hws : ∀ x ∈ l, isJsSpace x = false) (hh : '#' ∉ l) :
    trimChars (collapseWs (collapseNl (stripHeading l))) = l := by
  have hnl : '\n' ∉ l := by
    intro hm
    exact absurd (hws '\n' hm) (by decide)
  rw [stripHeading_id l hh, collapseNl_id l hnl,
    collapseWs_id l (fun x hx hxs => by rw [hws x hx] at hxs; cases hxs)
      (noAdjWs_of_no_ws l hws),
    trimChars_id l (noLeadWs_of_no_ws l hws) (noTrailWs_of_no_ws l hws)]

/-! ### the three shape laws at the full-pipeline level -/

/-- `*italic*` is stripped: around one matched pair of single `*` markers
with plain text inside and outside, sanitize returns exactly the text with
the two markers deleted. -/
lemma sanitizeChars_italic (a b c : List Char)
    (ha : a.all plainChar = true) (hb : b.all plainChar = true)
    (hc : c.all plainChar = true) (hbne : b ≠ []) :
    sanitizeChars (a ++ '*' :: b ++ '*' :: c) = a ++ b ++ c := by
  have hsa : '*' ∉ a := plain_not_mem '*' (by decide) a ha
  have hsb : '*' ∉ b := plain_not_mem '*' (by decide) b hb
  have hsc : '*' ∉ c := plain_not_mem '*' (by decide) c hc
  have hem : ∀ x ∈ a ++ '*' :: b ++ '*' :: c, isEmojiChar x = false := by
    intro x hx
    rcases List.mem_append.mp hx with hx | hx
    · rcases List.mem_append.mp hx with hx | hx
      · exact plain_no_emoji a ha x hx
      · rcases List.mem_cons.mp hx with hx | hx
        · subst hx; decide
        · exact plain_no_emoji b hb x hx
    · rcases List.mem_cons.mp hx with hx | hx
      · subst hx; decide
      · exact plain_no_emoji c hc x hx
  have hws : ∀ x ∈ a ++ b ++ c, isJsSpace x = false := by
    intro x hx
    rcases List.mem_append.mp hx with hx | hx
    · rcases List.mem_append.mp hx with hx | hx
      · exact plain_no_ws a ha x hx
      · exact plain_no_ws b hb x hx
    · exact plain_no_ws c hc x hx
  have hhsh : '#' ∉ a ++ b ++ c := by
    intro hm
    rcases List.mem_append.mp hm with hm | hm
    · rcases List.mem_append.mp hm with hm | hm
      · exact plain_not_mem '#' (by decide) a ha hm
      · exact plain_not_mem '#' (by decide) b hb hm
    · exact plain_not_mem '#' (by decide) c hc hm
  have htick : '`' ∉ a ++ b ++ c := by
    intro hm
    rcases List.mem_append.mp hm with hm | hm
    · rcases List.mem_append.mp hm with hm | hm
      · exact plain_not_mem '`' (by decide) a ha hm
      · exact plain_not_mem '`' (by decide) b hb hm
    · exact plain_not_mem '`' (by decide) c hc hm
  have e1 : emojiFiltered (a ++ '*' :: b ++ '*' :: c) =
      a ++ '*' :: b ++ '*' :: c :=
    emojiFiltered_id _ hem
  have e2 : stripDelim ['*', '*'] (a ++ '*' :: b ++ '*' :: c) =
      a ++ '*' :: b ++ '*' :: c :=
    stripDelimGo_double_id_adj '*' _ _
      (noAdjChar_shape '*' a b c hsa hsb hsc hbne)
  have e3 : stripDelim ['*'] (a ++ '*' :: b ++ '*' :: c) = a ++ b ++ c :=
    stripDelim_strip_pair '*' a b c hsa hsb
      (noLineTerm_of_no_ws b (plain_no_ws b hb)) hsc
  have e4 : stripDelim ['`'] (a ++ b ++ c) = a ++ b ++ c :=
    stripDelimGo_single_id '`' _ _
      (by rw [List.count_eq_zero.mpr htick]; omega)
  unfold sanitizeChars
  rw [e1, e2, e3, e4]
  exact sanitizeTail_id _ hws hhsh

/-- `` `code` `` is stripped: same law for a matched pair of backticks. -/
lemma sanitizeChars_code (a b c : List Char)
    (ha : a.all plainChar = true) (hb : b.all plainChar = true)
    (hc : c.all plainChar = true) :
    sanitizeChars (a ++ '`' :: b ++ '`' :: c) = a ++ b ++ c := by
  have hsa : '`' ∉ a := plain_not_mem '`' (by decide) a ha
  have hsb : '`' ∉ b := plain_not_mem '`' (by decide) b hb
  have hsc : '`' ∉ c := plain_not_mem '`' (by decide) c hc
  have hstar : '*' ∉ a ++ '`' :: b ++ '`' :: c := by
    intro hm
    rcases List.mem_append.mp hm with hm | hm
    · rcases List.mem_append.mp hm with hm | hm
      · exact plain_not_mem '*' (by decide) a ha hm
      · rcases List.mem_cons.mp hm with hm | hm
        · exact absurd hm (by decide)
        · exact plain_not_mem '*' (by decide) b hb hm
    · rcases List.mem_cons.mp hm with hm | hm
      · exact absurd hm (by decide)
      · exact plain_not_mem '*' (by decide) c hc hm
  have hem : ∀ x ∈ a ++ '`' :: b ++ '`' :: c, isEmojiChar x = false := by
    intro x hx
    rcases List.mem_append.mp hx with hx | hx
    · rcases List.mem_append.mp hx with hx | hx
      · exact plain_no_emoji a ha x hx
      · rcases List.mem_cons.mp hx with hx | hx
        · subst hx; decide
        · exact plain_no_emoji b hb x hx
    · rcases List.mem_cons.mp hx with hx | hx
      · subst hx; decide
      · exact plain_no_emoji c hc x hx
  have hws : ∀ x ∈ a ++ b ++ c, isJsSpace x = false := by
    intro x hx
    rcases List.mem_append.mp hx with hx | hx
    · rcases List.mem_append.mp hx with hx | hx
      · exact plain_no_ws a ha x hx
      · exact plain_no_ws b hb x hx
    · exact plain_no_ws c hc x hx
  have hhsh : '#' ∉ a ++ b ++ c := by
    intro hm
    rcases List.mem_append.mp hm with hm | hm
    · rcases List.mem_append.mp hm with hm | hm
      · exact plain_not_mem '#' (by decide) a ha hm
      · exact plain_not_mem '#' (by decide) b hb hm
    · exact plain_not_mem '#' (by decide) c hc hm
  have e1 : emojiFiltered (a ++ '`' :: b ++ '`' :: c) =
      a ++ '`' :: b ++ '`' :: c :=
    emojiFiltered_id _ hem
  have e2 : stripDelim ['*', '*'] (a ++ '`' :: b ++ '`' :: c) =
      a ++ '`' :: b ++ '`' :: c :=
    stripDelimGo_double_id '*' _ _
      (by rw [List.count_eq_zero.mpr hstar]; omega)
  have e3 : stripDelim ['*'] (a ++ '`' :: b ++ '`' :: c) =
      a ++ '`' :: b ++ '`' :: c :=
    stripDelimGo_single_id '*' _ _
      (by rw [List.count_eq_zero.mpr hstar]; omega)
  have e4 : stripDelim ['`'] (a ++ '`' :: b ++ '`' :: c) = a ++ b ++ c :=
    stripDelim_strip_pair '`' a b c hsa hsb
      (noLineTerm_of_no_ws b (plain_no_ws b hb)) hsc
  unfold sanitizeChars
  rw [e1, e2, e3, e4]
  exact sanitizeTail_id _ hws hhsh

/-- Newline runs become sentence breaks: a maximal run of newlines between
plain text becomes exactly `". "`. -/
lemma sanitizeChars_sentence (a b : List Char) (n : Nat)
    (ha : a.all plainChar = true) (hb : b.all plainChar = true)
    (hane : a ≠ []) (hbne : b ≠ []) :
    sanitizeChars (a ++ List.replicate (n + 1) '\n' ++ b) =
      a ++ '.' :: ' ' :: b := by
  have hnla : '\n' ∉ a := plain_not_mem '\n' (by decide) a ha
  have hnlb : '\n' ∉ b := plain_not_mem '\n' (by decide) b hb
  have hnotrep : ∀ d : Char, d ≠ '\n' → d ∉ List.replicate (n + 1) '\n' := by
    intro d hd hm
    exact hd (List.eq_of_mem_replicate hm)
  have hnotin : ∀ d : Char, plainChar d = false → d ≠ '\n' →
      d ∉ a ++ List.replicate (n + 1) '\n' ++ b := by
    intro d hd hdn hm
    rcases List.mem_append.mp hm with hm | hm
    · rcases List.mem_append.mp hm with hm | hm
      · exact plain_not_mem d hd a ha hm
      · exact hnotrep d hdn hm
    · exact plain_not_mem d hd b hb hm
  have hem : ∀ x ∈ a ++ List.replicate (n + 1) '\n' ++ b,
      isEmojiChar x = false := by
    intro x hx
    rcases List.mem_append.mp hx with hx | hx
    · rcases List.mem_append.mp hx with hx | hx
      · exact plain_no_emoji a ha x hx
      · rw [List.eq_of_mem_replicate hx]; decide
    · exact plain_no_emoji b hb x hx
  have hhsh : '#' ∉ a ++ List.replicate (n + 1) '\n' ++ b :=
    hnotin '#' (by decide) (by decide)
  have hstar : '*' ∉ a ++ List.replicate (n + 1) '\n' ++ b :=
    hnotin '*' (by decide) (by decide)
  have htick : '`' ∉ a ++ List.replicate (n + 1) '\n' ++ b :=
    hnotin '`' (by decide) (by decide)
  have e1 : emojiFiltered (a ++ List.replicate (n + 1) '\n' ++ b) =
      a ++ List.replicate (n + 1) '\n' ++ b :=
    emojiFiltered_id _ hem
  have e2 : stripDelim ['*', '*'] (a ++ List.replicate (n + 1) '\n' ++ b) =
      a ++ List.replicate (n + 1) '\n' ++ b :=
    stripDelimGo_double_id '*' _ _
      (by rw [List.count_eq_zero.mpr hstar]; omega)
  have e3 : stripDelim ['*'] (a ++ List.replicate (n + 1) '\n' ++ b) =
      a ++ List.replicate (n + 1) '\n' ++ b :=
    stripDelimGo_single_id '*' _ _
      (by rw [List.count_eq_zero.mpr hstar]; omega)
  have e4 : stripDelim ['`'] (a ++ List.replicate (n + 1) '\n' ++ b) =
      a ++ List.replicate (n + 1) '\n' ++ b :=
    stripDelimGo_single_id '`' _ _
      (by rw [List.count_eq_zero.mpr htick]; omega)
  have e5 : stripHeading (a ++ List.replicate (n + 1) '\n' ++ b) =
      a ++ List.replicate (n + 1) '\n' ++ b :=
    stripHeading_id _ hhsh
  unfold sanitizeChars
  rw [e1, e2, e3, e4, e5]
  rw [List.append_assoc, collapseNl_append a _ hnla, collapseNl_run n b hnlb]
  have hwsa := plain_no_ws a ha
  have hwsb := plain_no_ws b hb
  have hnadj : noAdjWs (a ++ '.' :: ' ' :: b) = true := by
    apply noAdjWs_prepend_no_ws a _ hwsa
    apply noAdjWs_cons_fst_not_ws '.' _ (by decide)
    cases b with
    | nil => rfl
    | cons y ys =>
      exact noAdjWs_cons_cons_not_ws ' ' y ys (hwsb y (by simp))
        (noAdjWs_of_no_ws _ (fun z hz => hwsb z hz))
  have hwssp : ∀ x ∈ a ++ '.' :: ' ' :: b, isJsSpace x = true → x = ' ' := by
    intro x hx hxs
    rcases List.mem_append.mp hx with hx | hx
    · rw [hwsa x hx] at hxs; cases hxs
    rcases List.mem_cons.mp hx with hx | hx
    · subst hx; cases hxs
    rcases List.mem_cons.mp hx with hx | hx
    · exact hx
    · rw [hwsb x hx] at hxs; cases hxs
  have hlead : noLeadWs (a ++ '.' :: ' ' :: b) = true := by
    cases a with
    | nil => exact absurd rfl hane
    | cons x a' => simp [List.cons_append, noLeadWs, hwsa x (by simp)]
  have htrail2 : noTrailWs ('.' :: ' ' :: b) = true := by
    cases b with
    | nil => exact absurd rfl hbne
    | cons y ys =>
      have := noTrailWs_of_no_ws (y :: ys) (fun z hz => hwsb z hz)
      simpa [noTrailWs, List.getLast?_cons_cons] using this
  have htrail : noTrailWs (a ++ '.' :: ' ' :: b) = true :=
    noTrailWs_append a _ (by simp) htrail2
  rw [collapseWs_id _ hwssp hnadj, trimChars_id _ hlead htrail]

lemma sanitizeText_mk (l : List Char) :
    sanitizeText (String.mk l) = String.mk (sanitizeChars l) := by
  have hdata : (String.mk l).data = l := rfl
  rw [sanitizeText, hdata]

/-! ## C5 — what sanitize removes and collapses -/

/-- **C5.** The output of `sanitize` contains no character of the seven
emoji ranges.  Every whitespace character of the output is a single space
and no two adjacent output characters are both whitespace (repeated
whitespace is collapsed), and no newline survives.  `**bold**`, `*italic*`
and `` `code` `` markers around plain text are stripped, keeping the
content (shape laws for a matched pair of `*` and of `` ` ``; `**` is also
exercised by the example).  A maximal run of newlines between plain text
becomes exactly the sentence break `". "`.  Concrete instances:
`sanitize "a *b* c" = "a b c"`, ``sanitize "x `y` z" = "x y z"``,
`sanitize "one\ntwo" = "one. two"`, `sanitize "p\n\n\nq" = "p. q"`, and
the spec's example `sanitize "# Hi **there** 😀" = "Hi there"`. -/
theorem sanitize_strips :
    (∀ (s : String), ∀ x ∈ (sanitizeText s).data, isEmojiChar x = false) ∧
    (∀ (s : String), ∀ x ∈ (sanitizeText s).data,
      isJsSpace x = true → x = ' ') ∧
    (∀ s : String, noAdjWs (sanitizeText s).data = true) ∧
    (∀ s : String, ((sanitizeText s).data.count '\n') = 0) ∧
    (∀ a b c : List Char, a.all plainChar = true → b.all plainChar = true →
      c.all plainChar = true → b ≠ [] →
      sanitizeText (String.mk (a ++ '*' :: b ++ '*' :: c)) =
        String.mk (a ++ b ++ c)) ∧
    (∀ a b c : List Char, a.all plainChar = true → b.all plainChar = true →
      c.all plainChar = true →
      sanitizeText (String.mk (a ++ '`' :: b ++ '`' :: c)) =
        String.mk (a ++ b ++ c)) ∧
    (∀ (a b : List Char) (n : Nat), a.all plainChar = true →
      b.all plainChar = true → a ≠ [] → b ≠ [] →
      sanitizeText (String.mk (a ++ List.replicate (n + 1) '\n' ++ b)) =
        String.mk (a ++ '.' :: ' ' :: b)) ∧
    sanitizeText "a *b* c" = "a b c" ∧
    sanitizeText "x `y` z" = "x y z" ∧
    sanitizeText "one\ntwo" = "one. two" ∧
    sanitizeText "p\n\n\nq" = "p. q" ∧
    sanitizeText "# Hi **there** 😀" = "Hi there" := by
  refine ⟨?_, ?_, ?_, ?_, ?_, ?_, ?_,
    by decide, by decide, by decide, by decide, by decide⟩
  · intro s x hx
    rw [sanitizeText_data] at hx
    exact sanitizeChars_no_emoji s.data x hx
  · intro s x hx hxs
    rw [sanitizeText_data] at hx
    exact sanitizeChars_ws_space s.data x hx hxs
  · intro s
    rw [sanitizeText_data]
    exact sanitizeChars_noAdj s.data
  · intro s
    rw [sanitizeText_data]
    exact sanitizeChars_no_newline s.data
  · intro a b c ha hb hc hbne
    rw [sanitizeText_mk, sanitizeChars_italic a b c ha hb hc hbne]
  · intro a b c ha hb hc
    rw [sanitizeText_mk, sanitizeChars_code a b c ha hb hc]
  · intro a b n ha hb hane hbne
    rw [sanitizeText_mk, sanitizeChars_sentence a b n ha hb hane hbne]

theorem sanitize_strips_witness :
    sanitizeText (String.mk (['u'] ++ '*' :: ['v'] ++ '*' :: ['w'])) =
        String.mk (['u'] ++ ['v'] ++ ['w']) ∧
      sanitizeText (String.mk (['u'] ++ '`' :: ['v'] ++ '`' :: ['w'])) =
        String.mk (['u'] ++ ['v'] ++ ['w']) ∧
      sanitizeText (String.mk (['o', 'n', 'e'] ++
          List.replicate (0 + 1) '\n' ++ ['t', 'w', 'o'])) =
        String.mk (['o', 'n', 'e'] ++ '.' :: ' ' :: ['t', 'w', 'o']) ∧
      isEmojiChar 'H' = false :=
  ⟨sanitize_strips.2.2.2.2.1 ['u'] ['v'] ['w']
      (by decide) (by decide) (by decide) (by decide),
    sanitize_strips.2.2.2.2.2.1 ['u'] ['v'] ['w']
      (by decide) (by decide) (by decide),
    sanitize_strips.2.2.2.2.2.2.1 ['o', 'n', 'e'] ['t', 'w', 'o'] 0
      (by decide) (by decide) (by decide) (by decide),
    sanitize_strips.1 "# Hi **there** 😀" 'H' (by decide)⟩

end StudyBuddy
